import Mathlib

/-!
# Scene.cpp : geometry to line-drawing converters

A shallow embedding of `src/app/qt/facefilter/Scene.cpp` and the properties of
its six converters.

Modelling conventions

* `float` and `double` values are modelled by `Fp`: NaN, the two infinities, the
  negative zero, and the finite values `n / 2 ^ k`.  Every arithmetic operation
  computes the exact result and rounds it to nearest, ties to even, in the
  format of the operation (`binary32` for `float`, `binary64` for `double`).
* `std::atan2` is fixed at the inputs with a zero ordinate, where Annex F of the
  C standard prescribes the result; elsewhere it is the parameter `libm`.
* `int` is modelled by `Int`; the sums in `cv::Rect_::br()` wrap at 32 bits.
* `std::vector` is `List`; `push_back` and `emplace_back` append one element at
  the end.
* A `void f(const In&, Out&)` function that updates `Out` in place is a function
  from the input and the old value of `Out` to its new value.
* A read outside the bounds of the color table has no defined result; the
  function doing it returns `none`.
-/

set_option maxRecDepth 100000

namespace Scene

/-! ## Binary floating-point values -/

/-- A floating-point value: NaN, an infinity (`neg = true` for `-∞`), the
negative zero, or the finite value `n / 2 ^ k`.  Values produced by the
operations below are in lowest terms: `n` is odd or `k = 0`; `+0` is `fin 0 0`. -/
inductive Fp where
  | nan
  | inf (neg : Bool)
  | negZero
  | fin (n : Int) (k : Nat)
deriving DecidableEq, Repr

/-- A binary format: `prec` significant bits, smallest positive value
`2 ^ (-emin)`, and overflow threshold `2 ^ emax`. -/
structure Format where
  prec : Nat
  emin : Nat
  emax : Nat

/-- The format of `float`. -/
def binary32 : Format := ⟨24, 149, 128⟩

/-- The format of `double`. -/
def binary64 : Format := ⟨53, 1074, 1024⟩

/-- Auxiliary recursion for `ilog2`. -/
def log2Fuel : Nat → Nat → Nat
  | 0, _ => 0
  | fuel + 1, n => if n < 2 then 0 else log2Fuel fuel (n / 2) + 1

/-- Position of the leading bit: `ilog2 n = ⌊log₂ n⌋` for `n > 0`. -/
def ilog2 (n : Nat) : Nat := log2Fuel n n

/-- The integer `⌊log₂ (n / d)⌋` for positive `n` and `d`. -/
def floorLog2 (n d : Nat) : Int :=
  let l : Int := (ilog2 n : Int) - (ilog2 d : Int)
  if d * 2 ^ l.toNat ≤ n * 2 ^ (-l).toNat then l else l - 1

/-- The finite value `± m / 2 ^ down` in lowest terms; a zero keeps its sign. -/
def mkFin (neg : Bool) (m down : Nat) : Fp :=
  if m = 0 then (if neg then Fp.negZero else Fp.fin 0 0)
  else
    let g := Nat.gcd m (2 ^ down)
    Fp.fin (if neg then -((m / g : Nat) : Int) else ((m / g : Nat) : Int))
      (ilog2 (2 ^ down / g))

/-- Rounding of the non-zero exact value `± n / d` (`n, d > 0`) to the format:
to nearest, ties to even, with gradual underflow and overflow to infinity.  The
value is written `M * 2 ^ u` with `u` the exponent of the last place. -/
def Fp.round (fmt : Format) (neg : Bool) (n d : Nat) : Fp :=
  let u : Int := max (floorLog2 n d - ((fmt.prec : Int) - 1)) (-(fmt.emin : Int))
  let up := u.toNat
  let down := (-u).toNat
  let N := n * 2 ^ down
  let D := d * 2 ^ up
  let q := N / D
  let r := N % D
  let M := if D < 2 * r ∨ (2 * r = D ∧ q % 2 = 1) then q + 1 else q
  if fmt.emax + down ≤ ilog2 (M * 2 ^ up) then Fp.inf neg else mkFin neg (M * 2 ^ up) down

/-- The sign bit. -/
def Fp.isNeg : Fp → Bool
  | .nan => false
  | .inf s => s
  | .negZero => true
  | .fin n _ => decide (n < 0)

/-- Whether the value is `+0` or `-0`. -/
def Fp.isZero : Fp → Bool
  | .negZero => true
  | .fin n _ => decide (n = 0)
  | _ => false

/-- The comparison `0 <= a` of floating-point values (false for NaN). -/
def Fp.nonneg : Fp → Bool
  | .nan => false
  | .inf s => !s
  | .negZero => true
  | .fin n _ => decide (0 ≤ n)

/-- Negation: flips the sign bit. -/
def Fp.neg : Fp → Fp
  | .nan => .nan
  | .inf s => .inf (!s)
  | .negZero => .fin 0 0
  | .fin n k => if n = 0 then .negZero else .fin (-n) k

/-- Addition in the format `fmt`. -/
def Fp.add (fmt : Format) : Fp → Fp → Fp
  | .nan, _ => .nan
  | _, .nan => .nan
  | .inf s, .inf t => if s = t then .inf s else .nan
  | .inf s, _ => .inf s
  | _, .inf t => .inf t
  | .negZero, b => b
  | a, .negZero => a
  | .fin n1 k1, .fin n2 k2 =>
    let s : Int := n1 * 2 ^ k2 + n2 * 2 ^ k1
    if s = 0 then .fin 0 0 else Fp.round fmt (decide (s < 0)) s.natAbs (2 ^ (k1 + k2))

/-- Subtraction in the format `fmt`: `a - b` is `a + (-b)`. -/
def Fp.sub (fmt : Format) (a b : Fp) : Fp := Fp.add fmt a (Fp.neg b)

/-- The zero with the sign of a product or quotient of `a` and `b`. -/
def Fp.signedZero (a b : Fp) : Fp :=
  if xor a.isNeg b.isNeg then .negZero else .fin 0 0

/-- Multiplication in the format `fmt`. -/
def Fp.mul (fmt : Format) (a b : Fp) : Fp :=
  match a, b with
  | .nan, _ => .nan
  | _, .nan => .nan
  | .inf s, b => if b.isZero then .nan else .inf (xor s b.isNeg)
  | a, .inf t => if a.isZero then .nan else .inf (xor a.isNeg t)
  | .fin n1 k1, .fin n2 k2 =>
    if n1 = 0 ∨ n2 = 0 then Fp.signedZero a b
    else Fp.round fmt (xor a.isNeg b.isNeg) (n1 * n2).natAbs (2 ^ (k1 + k2))
  | a, b => Fp.signedZero a b

/-- Division in the format `fmt`. -/
def Fp.div (fmt : Format) (a b : Fp) : Fp :=
  match a, b with
  | .nan, _ => .nan
  | _, .nan => .nan
  | .inf _, .inf _ => .nan
  | .inf s, b => .inf (xor s b.isNeg)
  | a, .inf _ => Fp.signedZero a b
  | .fin n1 k1, .fin n2 k2 =>
    if n2 = 0 then (if n1 = 0 then .nan else .inf (xor a.isNeg b.isNeg))
    else if n1 = 0 then Fp.signedZero a b
    else Fp.round fmt (xor a.isNeg b.isNeg) (n1.natAbs * 2 ^ k2) (n2.natAbs * 2 ^ k1)
  | .fin n1 _, .negZero => if n1 = 0 then .nan else .inf (xor a.isNeg true)
  | .negZero, .fin n2 _ => if n2 = 0 then .nan else Fp.signedZero a b
  | .negZero, .negZero => .nan

/-- Conversion of a value to the format `fmt` (`double` to `float` rounds;
`float` to `double` is exact and needs no conversion). -/
def Fp.cast (fmt : Format) : Fp → Fp
  | .fin n k => if n = 0 then .fin 0 0 else Fp.round fmt (decide (n < 0)) n.natAbs (2 ^ k)
  | a => a

/-- Conversion `int → float`. -/
def Fp.ofInt (v : Int) : Fp :=
  if v = 0 then .fin 0 0 else Fp.round binary32 (decide (v < 0)) v.natAbs 1

/-- Conversion `int(v)` of a `float` to `int`: truncation toward zero.  For NaN,
the infinities and values outside the range of `int` the standard leaves the
result undefined; the conversion instruction yields `-2^31`, which is the value
kept here. -/
def truncToInt : Fp → Int
  | .fin n k =>
    if Int.tdiv n (2 ^ k) < -2147483648 ∨ 2147483647 < Int.tdiv n (2 ^ k) then -2147483648
    else Int.tdiv n (2 ^ k)
  | .negZero => 0
  | _ => -2147483648

/-- Numerals denote the exact integer value. -/
instance (n : Nat) : OfNat Fp n := ⟨Fp.fin n 0⟩

/-- Unary minus of `float`. -/
instance : Neg Fp := ⟨Fp.neg⟩

/-- The operator `+` on `float` operands. -/
instance : Add Fp := ⟨Fp.add binary32⟩

/-- The operator `-` on `float` operands. -/
instance : Sub Fp := ⟨Fp.sub binary32⟩

/-- The literal `0.5f`. -/
def Fp.half : Fp := Fp.fin 1 1

/-- The `float` nearest to π, `3.14159274...`, bit pattern `0x40490FDB`. -/
def Fp.piFloat : Fp := Fp.fin 13176795 22

/-- The macro `M_PI`: the `double` nearest to π, bit pattern
`0x400921FB54442D18`. -/
def M_PI : Fp := Fp.fin 884279719003555 48

/-- 32-bit two's complement wrap-around of an integer. -/
def wrapInt32 (v : Int) : Int := (v + 2147483648) % 4294967296 - 2147483648

/-- The integers of magnitude at most `2 ^ 24`; `float` represents each of them
exactly. -/
def smallInt (v : Int) : Prop := -16777216 ≤ v ∧ v ≤ 16777216

/-- Membership in the exactly represented range is decidable. -/
instance (v : Int) : Decidable (smallInt v) :=
  inferInstanceAs (Decidable (-16777216 ≤ v ∧ v ≤ 16777216))

/-! ## OpenCV value types -/

/-- The `cv::Point2f` value type: a point with `float` coordinates. -/
structure Point2f where
  x : Fp
  y : Fp
deriving DecidableEq, Repr

/-- Coordinate-wise sum, `cv::Point_::operator+`. -/
instance : Add Point2f := ⟨fun a b => ⟨a.x + b.x, a.y + b.y⟩⟩

/-- Coordinate-wise difference, `cv::Point_::operator-`. -/
instance : Sub Point2f := ⟨fun a b => ⟨a.x - b.x, a.y - b.y⟩⟩

/-- The `cv::Point` value type: a point with `int` coordinates. -/
structure Point where
  x : Int
  y : Int
deriving DecidableEq, Repr

/-- Conversion `cv::Point → cv::Point2f` done by the initialisation
`const cv::Point2f tl = r.tl()`: each coordinate is converted to `float`. -/
def Point.toPoint2f (p : Point) : Point2f := ⟨Fp.ofInt p.x, Fp.ofInt p.y⟩

/-- The `cv::Rect` value type: top-left corner and size, all `int`. -/
structure Rect where
  x : Int
  y : Int
  width : Int
  height : Int
deriving DecidableEq, Repr

/-- Default-constructed `cv::Rect()`: all four members zero. -/
def Rect.empty : Rect := ⟨0, 0, 0, 0⟩

/-- Top-left corner, `cv::Rect_::tl()`. -/
def Rect.tl (r : Rect) : Point := ⟨r.x, r.y⟩

/-- Bottom-right corner, `cv::Rect_::br()`: the sums are 32-bit `int` sums. -/
def Rect.br (r : Rect) : Point := ⟨wrapInt32 (r.x + r.width), wrapInt32 (r.y + r.height)⟩

/-- The `cv::Vec3f` value type: three `float` channels. -/
structure Vec3f where
  v0 : Fp
  v1 : Fp
  v2 : Fp
deriving DecidableEq, Repr

/-- The `cv::Vec4f` value type: four `float` components `f[0] .. f[3]`. -/
structure Vec4f where
  v0 : Fp
  v1 : Fp
  v2 : Fp
  v3 : Fp
deriving DecidableEq, Repr

/-- Modelled from the spec: the color table `cv::Mat3f` is "a 1×N lookup array of
colors"; only its single row is kept. -/
structure Mat3f where
  row : List Vec3f

/-- Number of columns, the member `cols` (an `int`). -/
def Mat3f.cols (m : Mat3f) : Int := (m.row.length : Int)

/-- Element access `colorMap(i)`: defined exactly for `0 ≤ i < cols`. -/
def Mat3f.elemAt (m : Mat3f) (i : Int) : Option Vec3f :=
  if 0 ≤ i ∧ i < m.cols then m.row.get? i.toNat else none

/-! ## The line-drawing primitive and the face model -/

/-- One contour: an ordered sequence of points. -/
abbrev Contour := List Point2f

/-- Contours of one anatomical part. -/
abbrev ContourVec := List Contour

/-- Modelled from the spec: `ogles_gpgpu::LineDrawing` (its header is not part of
the sources) is "a flag indicating whether contours render as a connected strip
or as disconnected segments, a bounding region, a color, an ordered sequence of
contours, and a parallel ordered sequence of integer indices". -/
structure LineDrawing where
  strip : Bool
  roi : Rect
  color : Vec3f
  index : List Int
  contours : List Contour
deriving DecidableEq, Repr

/-- The output sequence `LineDrawingVec`. -/
abbrev LineDrawingVec := List LineDrawing

/-- Modelled from the spec: the value of a default-constructed
`ogles_gpgpu::LineDrawing drawing;`.  The region "defaults empty" and both
sequences start empty; the initial strip flag and color are fixed by member
initialisers of the absent header and are the parameters `strip0`, `color0`. -/
def LineDrawing.fresh (strip0 : Bool) (color0 : Vec3f) : LineDrawing :=
  { strip := strip0, roi := Rect.empty, color := color0, index := [], contours := [] }

/-- Modelled from the spec: `drishti::face::FaceModel` is an "external entity
owning a bounding region and a collection of named anatomical parts, each part a
collection of contours".  `getFaceParts b` is the result of the part-extraction
call with mode flag `b`, a sequence of parts in the model-defined order. -/
structure FaceModel where
  roi : Rect
  getFaceParts : Bool → List ContourVec

/-- Modelled from the spec: the default argument of `closed` in the declaration of
`rectangleToDrawing` in `Scene.hpp`, "Default closed-flag is false when
unspecified". -/
def closedDefault : Bool := false

/-! ## Scene.cpp -/

/-- The library function `std::atan2(y, x)` on `float` arguments.  For a zero
ordinate the result is the one Annex F.10.1.4 of the C standard prescribes:
NaN for a NaN abscissa, `±π` (rounded to `float`) when the abscissa is negative,
`-0` or `-∞`, and `±0` otherwise, with the sign of `y`.  Every other input is
answered by the parameter `libm`. -/
def atan2 (libm : Fp → Fp → Fp) (y x : Fp) : Fp :=
  if y.isZero then
    if x = Fp.nan then Fp.nan
    else if x.isNeg then (if y.isNeg then Fp.neg Fp.piFloat else Fp.piFloat)
    else y
  else libm y x

/-- Source lines 13-16, `getAngle`.  The `float` returned by `std::atan2` is
promoted to `double`, the arithmetic with `M_PI` and `180.0` is done in `double`,
and the result is converted to the `float` return type. -/
def getAngle (libm : Fp → Fp → Fp) (p : Point2f) : Fp :=
  Fp.cast binary32
    (Fp.div binary64 (Fp.mul binary64 (Fp.add binary64 (atan2 libm p.y p.x) M_PI) 180) M_PI)

/-- Source line 28: the local `index` of `flowToDrawings` for an angle and a
color table. -/
def flowToDrawings.index (angle : Fp) (colorMap : Mat3f) : Int :=
  max 0 (min (truncToInt (angle + Fp.half)) (colorMap.cols - 1))

/-- Source lines 18-35, `flowToDrawings`: one loop iteration per list element. -/
def flowToDrawings (libm : Fp → Fp → Fp) (strip0 : Bool) (color0 : Vec3f) :
    List Vec4f → LineDrawingVec → Mat3f → Option LineDrawingVec
  | [], drawings, _ => some drawings
  | f :: flow, drawings, colorMap =>
    let drawing := LineDrawing.fresh strip0 color0
    let p : Point2f := ⟨f.v0, f.v1⟩
    let q : Point2f := ⟨f.v2, f.v3⟩
    let angle := getAngle libm q
    let index := flowToDrawings.index angle colorMap
    match colorMap.elemAt index with
    | none => none
    | some c =>
      let drawing := { drawing with strip := false }
      let drawing := { drawing with color := c }
      let drawing := { drawing with contours := [[p, p + q]] }
      flowToDrawings libm strip0 color0 flow (drawings ++ [drawing]) colorMap

/-- Source lines 37-50, `pointsToCrosses`. -/
def pointsToCrosses (strip0 : Bool) (color0 : Vec3f) :
    List Point2f → LineDrawingVec → LineDrawingVec
  | [], crosses => crosses
  | p :: points, crosses =>
    let span : Fp := 8
    let dx : Point2f := ⟨span, 0⟩
    let dy : Point2f := ⟨0, span⟩
    let cross := LineDrawing.fresh strip0 color0
    let cross := { cross with strip := false }
    let cross := { cross with contours := [[p - dx, p + dx], [p - dy, p + dy]] }
    let cross := { cross with index := [0] }
    pointsToCrosses strip0 color0 points (crosses ++ [cross])

/-- Source lines 52-62, `rectangleToDrawing`. -/
def rectangleToDrawing (r : Rect) (drawing : LineDrawing) (closed : Bool) : LineDrawing :=
  let tl : Point2f := r.tl.toPoint2f
  let br : Point2f := r.br.toPoint2f
  let tr : Point2f := ⟨br.x, tl.y⟩
  let bl : Point2f := ⟨tl.x, br.y⟩
  let drawing := { drawing with strip := true }
  let drawing := { drawing with contours := [[tl, tr, br, bl]] }
  let drawing :=
    if closed then
      match drawing.contours.getLast? with
      | some back => { drawing with contours := drawing.contours.dropLast ++ [back ++ [tl]] }
      | none => drawing
    else drawing
  { drawing with index := [0] }

/-- Source lines 64-72, `rectanglesToDrawings`. -/
def rectanglesToDrawings (strip0 : Bool) (color0 : Vec3f) :
    List Rect → LineDrawingVec → LineDrawingVec
  | [], drawings => drawings
  | r :: rectangles, drawings =>
    let drawing := LineDrawing.fresh strip0 color0
    let drawing := rectangleToDrawing r drawing closedDefault
    rectanglesToDrawings strip0 color0 rectangles (drawings ++ [drawing])

/-- Source lines 81-88: the inner loop of `faceToDrawing` over the contours of
part number `i`. -/
def faceToDrawing.contourLoop (i : Int) : ContourVec → LineDrawing → LineDrawing
  | [], drawing => drawing
  | c :: cs, drawing =>
    if c.length ≠ 0 then
      let drawing := { drawing with index := drawing.index ++ [i] }
      let drawing := { drawing with contours := drawing.contours ++ [c] }
      faceToDrawing.contourLoop i cs drawing
    else
      faceToDrawing.contourLoop i cs drawing

/-- Source lines 79-89: the outer loop of `faceToDrawing`, entered with counter
`i` and the parts `parts[i], parts[i+1], ...` still to visit. -/
def faceToDrawing.partLoop : Nat → List ContourVec → LineDrawing → LineDrawing
  | _, [], drawing => drawing
  | i, part :: parts, drawing =>
    faceToDrawing.partLoop (i + 1) parts (faceToDrawing.contourLoop (i : Int) part drawing)

/-- Source lines 74-90, `faceToDrawing`. -/
def faceToDrawing (face : FaceModel) (drawing : LineDrawing) : LineDrawing :=
  let parts := face.getFaceParts true
  let drawing := { drawing with strip := true }
  let drawing := { drawing with roi := face.roi }
  faceToDrawing.partLoop 0 parts drawing

/-- Source lines 92-107, `facesToDrawings`. -/
def facesToDrawings (strip0 : Bool) (color0 : Vec3f) :
    List FaceModel → LineDrawingVec → LineDrawingVec
  | [], drawings => drawings
  | f :: faces, drawings =>
    let drawings :=
      let drawing := LineDrawing.fresh strip0 color0
      let drawing := rectangleToDrawing f.roi drawing closedDefault
      drawings ++ [drawing]
    let drawings :=
      let drawing := LineDrawing.fresh strip0 color0
      let drawing := faceToDrawing f drawing
      drawings ++ [drawing]
    facesToDrawings strip0 color0 faces drawings

/-! ## Reference descriptions taken from the specification -/

/-- The Face→Drawing rule in the words of the specification: enumerate the parts
in order (numbering them from `i`), for each part enumerate its contours, skip
any contour with zero points, and pair each remaining contour with the
enumeration index of its part. -/
def taggedContoursFrom (i : Nat) (parts : List ContourVec) : List (Int × Contour) :=
  (parts.enumFrom i).flatMap fun ip =>
    (ip.2.filter fun c => c.length ≠ 0).map fun c => ((ip.1 : Int), c)

/-- The tagged contours of a face's parts, numbered from zero. -/
def taggedContours (parts : List ContourVec) : List (Int × Contour) :=
  taggedContoursFrom 0 parts

/-- The sub-sequence of the elements at even offsets `0, 2, 4, ...`. -/
def evenOffsets {α : Type} : List α → List α
  | [] => []
  | [a] => [a]
  | a :: _ :: rest => a :: evenOffsets rest

/-- The sub-sequence of the elements at odd offsets `1, 3, 5, ...`. -/
def oddOffsets {α : Type} : List α → List α
  | [] => []
  | [_] => []
  | _ :: b :: rest => b :: oddOffsets rest

/-- A stand-in for the library arctangent away from a zero ordinate; the
evaluations that use it only reach inputs with a zero ordinate. -/
def libmSample : Fp → Fp → Fp := fun _ _ => Fp.nan


/-- A face with three parts: the first has one one-point contour and one empty
contour, the second has no contour, the third has one two-point contour. -/
def sampleFace : FaceModel :=
  { roi := ⟨1, 2, 3, 4⟩,
    getFaceParts := fun _ => [[[⟨0, 0⟩], []], [], [[⟨1, 1⟩, ⟨2, 2⟩]]] }

/-! ## Exactness of the floating-point operations on small integers -/

/-- The fuel-driven recursion computes the base-2 logarithm. -/
theorem log2Fuel_eq_log (fuel n : Nat) (h : n ≤ fuel) : log2Fuel fuel n = Nat.log 2 n := by
  induction fuel generalizing n with
  | zero =>
    have : n = 0 := by omega
    subst this
    simp [log2Fuel]
  | succ fuel ih =>
    unfold log2Fuel
    by_cases h2 : n < 2
    · rw [if_pos h2, Nat.log_of_lt h2]
    · rw [if_neg h2, ih (n / 2) (by omega),
        Nat.log_of_one_lt_of_le (by norm_num) (by omega : 2 ≤ n)]

theorem ilog2_eq_log (n : Nat) : ilog2 n = Nat.log 2 n :=
  log2Fuel_eq_log n n (le_refl n)

theorem ilog2_one : ilog2 1 = 0 := rfl

/-- Rounding a positive integer below `2 ^ 24` to `binary32` returns it. -/
theorem round_small_nat (neg : Bool) (n : Nat) (h0 : 0 < n) (h : n < 16777216) :
    Fp.round binary32 neg n 1 = Fp.fin (if neg then -(n : Int) else (n : Int)) 0 := by
  have hn : n ≠ 0 := by omega
  have hl : Nat.log 2 n < 24 := Nat.log_lt_of_lt_pow hn (by norm_num; exact h)
  have hle : 2 ^ Nat.log 2 n ≤ n := Nat.pow_log_le_self 2 hn
  obtain ⟨j, hj⟩ : ∃ j : Nat, Nat.log 2 n + j = 23 := ⟨23 - Nat.log 2 n, by omega⟩
  have hfl : floorLog2 n 1 = (Nat.log 2 n : Int) := by
    unfold floorLog2
    simp only [ilog2_eq_log, Nat.log_one_right, Nat.cast_zero, sub_zero, Int.toNat_ofNat]
    have : (-(Nat.log 2 n : Int)).toNat = 0 := by omega
    rw [this, if_pos (by simpa using hle)]
  have hu : max ((Nat.log 2 n : Int) - ((24 : Nat) - 1)) (-((149 : Nat) : Int)) = -(j : Int) := by
    rw [max_eq_left (by omega)]
    omega
  have hN : n * 2 ^ j < 2 ^ (128 + j) := by
    rw [Nat.pow_add]
    exact Nat.mul_lt_mul_of_lt_of_le (by omega) (le_refl _) (Nat.pow_pos (by norm_num))
  have hpos : n * 2 ^ j ≠ 0 := Nat.mul_ne_zero hn (by positivity)
  have hlog : ¬ (128 + j ≤ Nat.log 2 (n * 2 ^ j)) := by
    have := Nat.log_lt_of_lt_pow hpos hN
    omega
  unfold Fp.round
  simp only [binary32, hfl, hu, Int.toNat_neg_nat, neg_neg, Int.toNat_ofNat, pow_zero, mul_one,
    Nat.div_one, Nat.mod_one, mul_zero, Nat.lt_irrefl, zero_ne_one, false_and, or_self,
    if_false, ilog2_eq_log, hlog, Nat.not_lt_zero]
  unfold mkFin
  rw [if_neg hpos]
  have hp : 0 < 2 ^ j := Nat.pow_pos (by norm_num)
  simp only [Nat.gcd_mul_left_left, Nat.mul_div_cancel _ hp, Nat.div_self hp, ilog2_one]

/-- Rounding a positive integer up to `2 ^ 24` to `binary32` returns it. -/
theorem round_small (neg : Bool) (n : Nat) (h0 : 0 < n) (h : n ≤ 16777216) :
    Fp.round binary32 neg n 1 = Fp.fin (if neg then -(n : Int) else (n : Int)) 0 := by
  rcases Nat.lt_or_eq_of_le h with hlt | heq
  · exact round_small_nat neg n h0 hlt
  · subst heq
    cases neg <;> decide

/-- The conversion `int → float` is exact on integers of magnitude at most
`2 ^ 24`. -/
theorem ofInt_exact (v : Int) (h : smallInt v) : Fp.ofInt v = Fp.fin v 0 := by
  obtain ⟨h1, h2⟩ := h
  unfold Fp.ofInt
  by_cases hv : v = 0
  · rw [if_pos hv, hv]
  · rw [if_neg hv, round_small _ _ (by omega) (by omega)]
    by_cases hneg : v < 0
    · simp only [hneg, decide_True, if_true]
      congr 1
      omega
    · simp only [hneg, decide_False]
      congr 1
      simp only [Bool.false_eq_true, if_false]
      omega

/-- The `float` sum of two integers is exact when the sum has magnitude at most
`2 ^ 24`. -/
theorem add_int_exact (a b : Int) (h : smallInt (a + b)) :
    (Fp.fin a 0 + Fp.fin b 0 : Fp) = Fp.fin (a + b) 0 := by
  obtain ⟨h1, h2⟩ := h
  show Fp.add binary32 (Fp.fin a 0) (Fp.fin b 0) = Fp.fin (a + b) 0
  simp only [Fp.add, pow_zero, mul_one, Nat.add_zero]
  by_cases hs : a + b = 0
  · rw [if_pos hs, hs]
  · rw [if_neg hs, round_small _ _ (by omega) (by omega)]
    by_cases hneg : a + b < 0
    · simp only [hneg, decide_True, if_true]
      congr 1
      omega
    · simp only [hneg, decide_False]
      congr 1
      simp only [Bool.false_eq_true, if_false]
      omega

/-- The `float` difference of two integers is exact when the difference has
magnitude at most `2 ^ 24`. -/
theorem sub_int_exact (a b : Int) (h : smallInt (a - b)) :
    (Fp.fin a 0 - Fp.fin b 0 : Fp) = Fp.fin (a - b) 0 := by
  show Fp.add binary32 (Fp.fin a 0) (Fp.neg (Fp.fin b 0)) = Fp.fin (a - b) 0
  by_cases hb : b = 0
  · subst hb
    simp [Fp.neg, Fp.add]
  · have e : Fp.neg (Fp.fin b 0) = Fp.fin (-b) 0 := by simp [Fp.neg, hb]
    rw [e]
    have := add_int_exact a (-b) (by simpa [sub_eq_add_neg] using h)
    rw [sub_eq_add_neg]
    exact this

/-- Subtracting `+0` leaves an integer-valued `float` unchanged. -/
theorem sub_zero_exact (a : Int) : (Fp.fin a 0 - 0 : Fp) = Fp.fin a 0 := by
  show Fp.add binary32 (Fp.fin a 0) (Fp.neg (Fp.fin 0 0)) = Fp.fin a 0
  simp [Fp.neg, Fp.add]

/-- Within the range `[-2^24, 2^24]` the 32-bit wrap-around is the identity. -/
theorem wrapInt32_small (v : Int) (h : smallInt v) : wrapInt32 v = v := by
  obtain ⟨h1, h2⟩ := h
  unfold wrapInt32
  omega

/-! ## Basic facts about the value types -/

theorem Point2f.add_x (a b : Point2f) : (a + b).x = a.x + b.x := rfl

theorem Point2f.add_y (a b : Point2f) : (a + b).y = a.y + b.y := rfl

theorem Point2f.sub_x (a b : Point2f) : (a - b).x = a.x - b.x := rfl

theorem Point2f.sub_y (a b : Point2f) : (a - b).y = a.y - b.y := rfl

theorem Point2f.add_mk (a b c d : Fp) :
    (⟨a, b⟩ + ⟨c, d⟩ : Point2f) = ⟨a + c, b + d⟩ := rfl

theorem Point2f.sub_mk (a b c d : Fp) :
    (⟨a, b⟩ - ⟨c, d⟩ : Point2f) = ⟨a - c, b - d⟩ := rfl

/-! ## rectangleToDrawing -/

/-- C1 as stated fails: for the rectangle `(16777217, 0, 2, 33554433)` the corners
are converted to `float` and rounded, so the contour is
`[(16777216,0),(16777220,0),(16777220,33554432),(16777216,33554432)]` and not
`[(x,y),(x+w,y),(x+w,y+h),(x,y+h)]`. -/
theorem rectangleToDrawing_rounds :
    (rectangleToDrawing ⟨16777217, 0, 2, 33554433⟩ (LineDrawing.fresh true ⟨0, 1, 0⟩)
        false).contours =
      [[⟨16777216, 0⟩, ⟨16777220, 0⟩, ⟨16777220, 33554432⟩, ⟨16777216, 33554432⟩]]
    ∧ (rectangleToDrawing ⟨16777217, 0, 2, 33554433⟩ (LineDrawing.fresh true ⟨0, 1, 0⟩)
        false).contours ≠
      [[⟨16777217, 0⟩, ⟨16777219, 0⟩, ⟨16777219, 33554433⟩, ⟨16777217, 33554433⟩]] := by
  decide

/-- Evaluation of `rectangleToDrawing` on `(2147483647, 0, 1, 0)`: the 32-bit sum
`x + width` wraps, and the right-hand corners get the abscissa `-2147483648`. -/
theorem rectangleToDrawing_wraps :
    (rectangleToDrawing ⟨2147483647, 0, 1, 0⟩ (LineDrawing.fresh true ⟨0, 1, 0⟩)
        false).contours =
      [[⟨2147483648, 0⟩, ⟨-2147483648, 0⟩, ⟨-2147483648, 0⟩, ⟨2147483648, 0⟩]] := by
  decide

/-- C1 amended: for every rectangle and every input drawing, `rectangleToDrawing`
with `closed = false` leaves exactly one contour of exactly 4 points, in order
TL, TR, BR, BL, whose coordinates are the `float` conversions of `x`, `y` and of
the 32-bit sums `x + w`, `y + h`; with `closed = true` the contour has 5 points,
the first four as before and the fifth equal to the first; in both cases `strip`
is true and `index` is `[0]`.  When `x`, `y`, `x + w` and `y + h` have magnitude
at most `2 ^ 24` the conversions are exact and the points are `(x,y)`,
`(x+w,y)`, `(x+w,y+h)`, `(x,y+h)`.  The rectangle `(0,0,10,5)` closed gives
`[(0,0),(10,0),(10,5),(0,5),(0,0)]`. -/
theorem rectangleToDrawing_contour (r : Rect) (drawing : LineDrawing) :
    (rectangleToDrawing r drawing false).contours =
        [[⟨Fp.ofInt r.x, Fp.ofInt r.y⟩,
          ⟨Fp.ofInt (wrapInt32 (r.x + r.width)), Fp.ofInt r.y⟩,
          ⟨Fp.ofInt (wrapInt32 (r.x + r.width)), Fp.ofInt (wrapInt32 (r.y + r.height))⟩,
          ⟨Fp.ofInt r.x, Fp.ofInt (wrapInt32 (r.y + r.height))⟩]]
    ∧ (rectangleToDrawing r drawing true).contours =
        [[⟨Fp.ofInt r.x, Fp.ofInt r.y⟩,
          ⟨Fp.ofInt (wrapInt32 (r.x + r.width)), Fp.ofInt r.y⟩,
          ⟨Fp.ofInt (wrapInt32 (r.x + r.width)), Fp.ofInt (wrapInt32 (r.y + r.height))⟩,
          ⟨Fp.ofInt r.x, Fp.ofInt (wrapInt32 (r.y + r.height))⟩,
          ⟨Fp.ofInt r.x, Fp.ofInt r.y⟩]]
    ∧ (rectangleToDrawing r drawing false).contours.map List.length = [4]
    ∧ (rectangleToDrawing r drawing true).contours.map List.length = [5]
    ∧ (∀ closed, (rectangleToDrawing r drawing closed).strip = true
        ∧ (rectangleToDrawing r drawing closed).index = [0])
    ∧ (smallInt r.x → smallInt r.y → smallInt (r.x + r.width) → smallInt (r.y + r.height) →
        (rectangleToDrawing r drawing false).contours =
          [[⟨Fp.fin r.x 0, Fp.fin r.y 0⟩, ⟨Fp.fin (r.x + r.width) 0, Fp.fin r.y 0⟩,
            ⟨Fp.fin (r.x + r.width) 0, Fp.fin (r.y + r.height) 0⟩,
            ⟨Fp.fin r.x 0, Fp.fin (r.y + r.height) 0⟩]]
        ∧ (rectangleToDrawing r drawing true).contours =
          [[⟨Fp.fin r.x 0, Fp.fin r.y 0⟩, ⟨Fp.fin (r.x + r.width) 0, Fp.fin r.y 0⟩,
            ⟨Fp.fin (r.x + r.width) 0, Fp.fin (r.y + r.height) 0⟩,
            ⟨Fp.fin r.x 0, Fp.fin (r.y + r.height) 0⟩, ⟨Fp.fin r.x 0, Fp.fin r.y 0⟩]])
    ∧ (rectangleToDrawing ⟨0, 0, 10, 5⟩ drawing true).contours =
        [[⟨0, 0⟩, ⟨10, 0⟩, ⟨10, 5⟩, ⟨0, 5⟩, ⟨0, 0⟩]]
    ∧ (rectangleToDrawing ⟨0, 0, 10, 5⟩ drawing true).strip = true := by
  refine ⟨rfl, rfl, rfl, rfl, ?_, ?_, rfl, rfl⟩
  · intro closed
    cases closed <;> exact ⟨rfl, rfl⟩
  · intro hx hy hxw hyh
    have e1 := ofInt_exact r.x hx
    have e2 := ofInt_exact r.y hy
    have e3 : Fp.ofInt (wrapInt32 (r.x + r.width)) = Fp.fin (r.x + r.width) 0 := by
      rw [wrapInt32_small _ hxw, ofInt_exact _ hxw]
    have e4 : Fp.ofInt (wrapInt32 (r.y + r.height)) = Fp.fin (r.y + r.height) 0 := by
      rw [wrapInt32_small _ hyh, ofInt_exact _ hyh]
    constructor
    · show [[(⟨Fp.ofInt r.x, Fp.ofInt r.y⟩ : Point2f), _, _, _]] = _
      simp only [Rect.br, Rect.tl, Point.toPoint2f, e1, e2, e3, e4]
    · show [[(⟨Fp.ofInt r.x, Fp.ofInt r.y⟩ : Point2f), _, _, _, _]] = _
      simp only [Rect.br, Rect.tl, Point.toPoint2f, e1, e2, e3, e4]

/-- Witness for C1 amended at the rectangle `(3, 4, 10, 5)`, whose corners are in
the exactly represented range: open it gives `[(3,4),(13,4),(13,9),(3,9)]`. -/
theorem rectangleToDrawing_contour_witness :
    smallInt 3 ∧ smallInt 4 ∧ smallInt (3 + 10) ∧ smallInt (4 + 5)
    ∧ (rectangleToDrawing ⟨3, 4, 10, 5⟩ (LineDrawing.fresh true ⟨0, 1, 0⟩) false).contours =
        [[⟨3, 4⟩, ⟨13, 4⟩, ⟨13, 9⟩, ⟨3, 9⟩]]
    ∧ (rectangleToDrawing ⟨3, 4, 10, 5⟩ (LineDrawing.fresh true ⟨0, 1, 0⟩) true).contours =
        [[⟨3, 4⟩, ⟨13, 4⟩, ⟨13, 9⟩, ⟨3, 9⟩, ⟨3, 4⟩]] := by
  obtain ⟨_, _, _, _, _, h, _⟩ :=
    rectangleToDrawing_contour ⟨3, 4, 10, 5⟩ (LineDrawing.fresh true ⟨0, 1, 0⟩)
  have h3 : smallInt 3 := by decide
  have h4 : smallInt 4 := by decide
  have h13 : smallInt (3 + 10) := by decide
  have h9 : smallInt (4 + 5) := by decide
  exact ⟨h3, h4, h13, h9, (h h3 h4 h13 h9).1, (h h3 h4 h13 h9).2⟩

/-! ## pointsToCrosses -/

/-- The loop of `pointsToCrosses` appends one cross per point to the output. -/
theorem pointsToCrosses_eq_append (strip0 : Bool) (color0 : Vec3f) (points : List Point2f)
    (crosses : LineDrawingVec) :
    pointsToCrosses strip0 color0 points crosses =
      crosses ++ points.map (fun p =>
        { strip := false, roi := Rect.empty, color := color0, index := [0],
          contours := [[p - ⟨8, 0⟩, p + ⟨8, 0⟩], [p - ⟨0, 8⟩, p + ⟨0, 8⟩]] }) := by
  induction points generalizing crosses with
  | nil => simp [pointsToCrosses]
  | cons p points ih => simp [pointsToCrosses, ih, LineDrawing.fresh]

/-- Position `n + k` of `out ++ xs.map g` holds the image of the `k`-th input. -/
theorem get?_append_map {α β : Type} (g : α → β) (out : List β) (xs : List α) (k : Nat) :
    (out ++ xs.map g).get? (out.length + k) = (xs.get? k).map g := by
  simp [List.getElem?_append_right]

/-- C2 as stated fails: for the point `(1000000000, 0)` the sums `px - 8` and
`px + 8` round back to `px`, so the horizontal contour is
`[(1000000000,0),(1000000000,0)]` and not `[(px-8,py),(px+8,py)]`; its two
points do not lie 8 away from `p`. -/
theorem pointsToCrosses_cross_rounds :
    (pointsToCrosses true ⟨0, 1, 0⟩ [⟨1000000000, 0⟩] []).map LineDrawing.contours =
      [[[⟨1000000000, 0⟩, ⟨1000000000, 0⟩], [⟨1000000000, -8⟩, ⟨1000000000, 8⟩]]]
    ∧ (pointsToCrosses true ⟨0, 1, 0⟩ [⟨1000000000, 0⟩] []).map LineDrawing.contours ≠
      [[[⟨999999992, 0⟩, ⟨1000000008, 0⟩], [⟨1000000000, -8⟩, ⟨1000000000, 8⟩]]] := by
  decide

/-- C2 amended: the drawing that `pointsToCrosses` emits for the `k`-th input
point `p = (px, py)` has `strip = false` and exactly two contours of two points
each, the horizontal segment `[p - (8,0), p + (8,0)]` followed by the vertical
segment `[p - (0,8), p + (0,8)]`, with the sums and differences computed in
`float`.  When `px` and `py` are integers and `px ± 8`, `py ± 8` have magnitude
at most `2 ^ 24`, the arithmetic is exact: the contours are
`[(px-8,py),(px+8,py)]` and `[(px,py-8),(px,py+8)]`, the two points of each sum
to `2p`, and each lies at distance 8 from `p` along its axis. -/
theorem pointsToCrosses_cross (strip0 : Bool) (color0 : Vec3f) (points : List Point2f)
    (crosses : LineDrawingVec) (k : Nat) (p : Point2f) (hk : points.get? k = some p) :
    ∃ cross : LineDrawing,
      (pointsToCrosses strip0 color0 points crosses).get? (crosses.length + k) = some cross
      ∧ cross.strip = false
      ∧ cross.contours =
          [[⟨p.x - 8, p.y - 0⟩, ⟨p.x + 8, p.y + 0⟩], [⟨p.x - 0, p.y - 8⟩, ⟨p.x + 0, p.y + 8⟩]]
      ∧ cross.contours.map List.length = [2, 2]
      ∧ (∀ a b : Int, p = ⟨Fp.fin a 0, Fp.fin b 0⟩ →
          smallInt (a - 8) → smallInt (a + 8) → smallInt (b - 8) → smallInt (b + 8) →
          cross.contours =
            [[⟨Fp.fin (a - 8) 0, Fp.fin b 0⟩, ⟨Fp.fin (a + 8) 0, Fp.fin b 0⟩],
             [⟨Fp.fin a 0, Fp.fin (b - 8) 0⟩, ⟨Fp.fin a 0, Fp.fin (b + 8) 0⟩]]
          ∧ ∀ c ∈ cross.contours, ∃ m1 n1 m2 n2 : Int,
              c = [⟨Fp.fin m1 0, Fp.fin n1 0⟩, ⟨Fp.fin m2 0, Fp.fin n2 0⟩]
              ∧ m1 + m2 = 2 * a ∧ n1 + n2 = 2 * b
              ∧ |m2 - a| + |n2 - b| = 8 ∧ |m1 - a| + |n1 - b| = 8) := by
  refine ⟨{ strip := false, roi := Rect.empty, color := color0, index := [0],
            contours := [[p - ⟨8, 0⟩, p + ⟨8, 0⟩], [p - ⟨0, 8⟩, p + ⟨0, 8⟩]] },
    ?_, rfl, rfl, rfl, ?_⟩
  · rw [pointsToCrosses_eq_append, get?_append_map, hk]
    rfl
  · intro a b hp ha1 ha2 hb1 hb2
    subst hp
    have hsa : smallInt (a + 0) := ⟨by have := ha1.1; omega, by have := ha2.2; omega⟩
    have hsb : smallInt (b + 0) := ⟨by have := hb1.1; omega, by have := hb2.2; omega⟩
    have e1 : (Fp.fin a 0 - 8 : Fp) = Fp.fin (a - 8) 0 := sub_int_exact a 8 ha1
    have e2 : (Fp.fin a 0 + 8 : Fp) = Fp.fin (a + 8) 0 := add_int_exact a 8 ha2
    have e3 : (Fp.fin b 0 - 8 : Fp) = Fp.fin (b - 8) 0 := sub_int_exact b 8 hb1
    have e4 : (Fp.fin b 0 + 8 : Fp) = Fp.fin (b + 8) 0 := add_int_exact b 8 hb2
    have e5 : (Fp.fin a 0 - 0 : Fp) = Fp.fin a 0 := sub_zero_exact a
    have e6 : (Fp.fin b 0 - 0 : Fp) = Fp.fin b 0 := sub_zero_exact b
    have e7 : (Fp.fin a 0 + 0 : Fp) = Fp.fin a 0 := by
      have := add_int_exact a 0 hsa
      rwa [Int.add_zero] at this
    have e8 : (Fp.fin b 0 + 0 : Fp) = Fp.fin b 0 := by
      have := add_int_exact b 0 hsb
      rwa [Int.add_zero] at this
    have hc : ([[(⟨Fp.fin a 0, Fp.fin b 0⟩ : Point2f) - ⟨8, 0⟩, ⟨Fp.fin a 0, Fp.fin b 0⟩ + ⟨8, 0⟩],
        [⟨Fp.fin a 0, Fp.fin b 0⟩ - ⟨0, 8⟩, ⟨Fp.fin a 0, Fp.fin b 0⟩ + ⟨0, 8⟩]] : List Contour) =
        [[⟨Fp.fin (a - 8) 0, Fp.fin b 0⟩, ⟨Fp.fin (a + 8) 0, Fp.fin b 0⟩],
         [⟨Fp.fin a 0, Fp.fin (b - 8) 0⟩, ⟨Fp.fin a 0, Fp.fin (b + 8) 0⟩]] := by
      simp only [Point2f.sub_mk, Point2f.add_mk, e1, e2, e3, e4, e5, e6, e7, e8]
    refine ⟨hc, ?_⟩
    intro c hcm
    rw [hc] at hcm
    simp only [List.mem_cons, List.mem_singleton, List.not_mem_nil, or_false] at hcm
    rcases hcm with rfl | rfl
    · refine ⟨a - 8, b, a + 8, b, rfl, by ring, by ring, ?_, ?_⟩ <;> simp
    · refine ⟨a, b - 8, a, b + 8, rfl, by ring, by ring, ?_, ?_⟩ <;> simp

/-- Witness for C2 amended at the single point `(3, 4)` and an empty output. -/
theorem pointsToCrosses_cross_witness :
    ∃ cross : LineDrawing,
      (pointsToCrosses true ⟨0, 1, 0⟩ [⟨3, 4⟩] []).get? 0 = some cross
      ∧ cross.strip = false
      ∧ cross.contours = [[⟨-5, 4⟩, ⟨11, 4⟩], [⟨3, -4⟩, ⟨3, 12⟩]] := by
  obtain ⟨cross, h1, h2, _, _, h5⟩ :=
    pointsToCrosses_cross true ⟨0, 1, 0⟩ [⟨3, 4⟩] [] 0 ⟨3, 4⟩ rfl
  exact ⟨cross, h1, h2,
    (h5 3 4 rfl (by decide) (by decide) (by decide) (by decide)).1⟩

/-- C3: evaluation of `pointsToCrosses` at the single point `(0, 0)` with an empty
output: the emitted cross has the index sequence `[0]`, one entry, and two
contours, so the two sequences differ in length. -/
theorem pointsToCrosses_index_length (strip0 : Bool) (color0 : Vec3f) :
    (pointsToCrosses strip0 color0 [⟨0, 0⟩] []).map
        (fun cross => (cross.index, cross.index.length, cross.contours.length))
      = [([0], 1, 2)] := by
  rfl

/-! ## faceToDrawing -/

/-- The inner loop appends the non-empty contours of the part and one copy of
the part number for each of them. -/
theorem contourLoop_eq (i : Int) (cs : ContourVec) (drawing : LineDrawing) :
    faceToDrawing.contourLoop i cs drawing =
      { strip := drawing.strip, roi := drawing.roi, color := drawing.color,
        index := drawing.index ++ (cs.filter fun c => c.length ≠ 0).map fun _ => i,
        contours := drawing.contours ++ cs.filter fun c => c.length ≠ 0 } := by
  induction cs generalizing drawing with
  | nil => simp [faceToDrawing.contourLoop]
  | cons c cs ih =>
    by_cases h : c.length = 0
    · rw [faceToDrawing.contourLoop, if_neg (not_not.mpr h), ih,
        List.filter_cons_of_neg (by simpa using h)]
    · rw [faceToDrawing.contourLoop, if_pos h, ih, List.filter_cons_of_pos (by simpa using h)]
      simp only [List.append_assoc, List.singleton_append, List.map_cons]

/-- The outer loop entered with counter `i` appends the tagged contours of the
remaining parts, numbered from `i`. -/
theorem partLoop_eq (i : Nat) (parts : List ContourVec) (drawing : LineDrawing) :
    faceToDrawing.partLoop i parts drawing =
      { strip := drawing.strip, roi := drawing.roi, color := drawing.color,
        index := drawing.index ++ (taggedContoursFrom i parts).map Prod.fst,
        contours := drawing.contours ++ (taggedContoursFrom i parts).map Prod.snd } := by
  induction parts generalizing i drawing with
  | nil => simp [faceToDrawing.partLoop, taggedContoursFrom]
  | cons part parts ih =>
    simp only [faceToDrawing.partLoop, ih, contourLoop_eq]
    simp [taggedContoursFrom, List.enumFrom_cons, Function.comp_def]

/-- Shape of the result of `faceToDrawing`. -/
theorem faceToDrawing_eq (face : FaceModel) (drawing : LineDrawing) :
    faceToDrawing face drawing =
      { strip := true, roi := face.roi, color := drawing.color,
        index := drawing.index ++ (taggedContours (face.getFaceParts true)).map Prod.fst,
        contours :=
          drawing.contours ++ (taggedContours (face.getFaceParts true)).map Prod.snd } := by
  simp [faceToDrawing, partLoop_eq, taggedContours]

/-- Every tagged contour is non-empty. -/
theorem taggedContoursFrom_ne_nil (i : Nat) (parts : List ContourVec) (t : Int × Contour)
    (ht : t ∈ taggedContoursFrom i parts) : t.2.length ≠ 0 := by
  simp only [taggedContoursFrom, List.mem_flatMap, List.mem_map, List.mem_filter] at ht
  obtain ⟨ip, _, c, ⟨_, hc⟩, rfl⟩ := ht
  simpa using hc

/-- C4: for every face model, `faceToDrawing` applied to a freshly constructed
drawing gives as many contours as index entries, and no contour of the result
has zero points. -/
theorem faceToDrawing_parallel (strip0 : Bool) (color0 : Vec3f) (face : FaceModel) :
    (faceToDrawing face (LineDrawing.fresh strip0 color0)).contours.length =
        (faceToDrawing face (LineDrawing.fresh strip0 color0)).index.length
    ∧ ∀ c ∈ (faceToDrawing face (LineDrawing.fresh strip0 color0)).contours,
        c.length ≠ 0 := by
  rw [faceToDrawing_eq]
  refine ⟨by simp [LineDrawing.fresh], ?_⟩
  intro c hc
  simp only [LineDrawing.fresh, List.nil_append, List.mem_map] at hc
  obtain ⟨t, ht, rfl⟩ := hc
  exact taggedContoursFrom_ne_nil 0 _ t ht

/-- Unwinding the tagged contours by one part. -/
theorem taggedContoursFrom_cons (i : Nat) (part : ContourVec) (parts : List ContourVec) :
    taggedContoursFrom i (part :: parts) =
      ((part.filter fun c => c.length ≠ 0).map fun c => ((i : Int), c))
        ++ taggedContoursFrom (i + 1) parts := by
  simp [taggedContoursFrom, List.enumFrom_cons]

/-- The contours of the tagged list are the non-empty contours, part by part. -/
theorem taggedContoursFrom_snd (i : Nat) (parts : List ContourVec) :
    (taggedContoursFrom i parts).map Prod.snd =
      (parts.map fun part => part.filter fun c => c.length ≠ 0).flatten := by
  induction parts generalizing i with
  | nil => simp [taggedContoursFrom]
  | cons part parts ih => simp [taggedContoursFrom_cons, ih, Function.comp_def]

/-- The tags of the tagged list repeat each part number once per non-empty
contour of that part. -/
theorem taggedContoursFrom_fst (i : Nat) (parts : List ContourVec) :
    (taggedContoursFrom i parts).map Prod.fst =
      ((parts.enumFrom i).map fun ip =>
        List.replicate (ip.2.filter fun c => c.length ≠ 0).length (ip.1 : Int)).flatten := by
  induction parts generalizing i with
  | nil => simp [taggedContoursFrom]
  | cons part parts ih =>
    simp [taggedContoursFrom_cons, ih, Function.comp_def, List.enumFrom_cons,
      List.map_const']

/-- Zipping the two projections of a list of pairs gives the list back. -/
theorem zip_map_fst_map_snd {α β : Type} (l : List (α × β)) :
    (l.map Prod.fst).zip (l.map Prod.snd) = l := by
  induction l with
  | nil => rfl
  | cons a l ih => simp [ih]

/-- C5: for every face model with parts `parts = getFaceParts(true)`,
`faceToDrawing` on a fresh drawing gives as contours exactly the non-empty
contours of all parts, part by part in enumeration order and in each part's own
order; the index sequence repeats the enumeration number of each part once per
non-empty contour of that part, so that position by position the pairs
`(index[k], contours[k])` are the contours tagged with the number of the part
they come from; `strip` is true and `roi` is the face's roi. -/
theorem faceToDrawing_contents (strip0 : Bool) (color0 : Vec3f) (face : FaceModel) :
    (faceToDrawing face (LineDrawing.fresh strip0 color0)).contours =
        ((face.getFaceParts true).map fun part => part.filter fun c => c.length ≠ 0).flatten
    ∧ (faceToDrawing face (LineDrawing.fresh strip0 color0)).index =
        ((face.getFaceParts true).enum.map fun ip =>
          List.replicate (ip.2.filter fun c => c.length ≠ 0).length (ip.1 : Int)).flatten
    ∧ (faceToDrawing face (LineDrawing.fresh strip0 color0)).index.zip
          (faceToDrawing face (LineDrawing.fresh strip0 color0)).contours =
        taggedContours (face.getFaceParts true)
    ∧ (faceToDrawing face (LineDrawing.fresh strip0 color0)).index.length =
        (faceToDrawing face (LineDrawing.fresh strip0 color0)).contours.length
    ∧ (faceToDrawing face (LineDrawing.fresh strip0 color0)).strip = true
    ∧ (faceToDrawing face (LineDrawing.fresh strip0 color0)).roi = face.roi := by
  rw [faceToDrawing_eq]
  refine ⟨?_, ?_, ?_, ?_, rfl, rfl⟩
  · simp [LineDrawing.fresh, taggedContours, taggedContoursFrom_snd]
  · simp [LineDrawing.fresh, taggedContours, taggedContoursFrom_fst, List.enum]
  · simp [LineDrawing.fresh, zip_map_fst_map_snd]
  · simp [LineDrawing.fresh]

/-! ## rectanglesToDrawings and facesToDrawings -/

/-- The loop of `rectanglesToDrawings` appends one drawing per rectangle. -/
theorem rectanglesToDrawings_eq_append (strip0 : Bool) (color0 : Vec3f)
    (rectangles : List Rect) (drawings : LineDrawingVec) :
    rectanglesToDrawings strip0 color0 rectangles drawings =
      drawings ++ rectangles.map fun r =>
        rectangleToDrawing r (LineDrawing.fresh strip0 color0) false := by
  induction rectangles generalizing drawings with
  | nil => simp [rectanglesToDrawings]
  | cons r rectangles ih => simp [rectanglesToDrawings, ih, closedDefault]

/-- The loop of `facesToDrawings` appends two drawings per face. -/
theorem facesToDrawings_eq_append (strip0 : Bool) (color0 : Vec3f)
    (faces : List FaceModel) (drawings : LineDrawingVec) :
    facesToDrawings strip0 color0 faces drawings =
      drawings ++ faces.flatMap fun f =>
        [rectangleToDrawing f.roi (LineDrawing.fresh strip0 color0) false,
         faceToDrawing f (LineDrawing.fresh strip0 color0)] := by
  induction faces generalizing drawings with
  | nil => simp [facesToDrawings]
  | cons f faces ih => simp [facesToDrawings, ih, closedDefault]

/-- Length of a list built from two elements per input. -/
theorem length_flatMap_pair {α β : Type} (a b : α → β) (xs : List α) :
    (xs.flatMap fun x => [a x, b x]).length = 2 * xs.length := by
  induction xs with
  | nil => rfl
  | cons x xs ih => simp [List.flatMap_cons, ih]; omega

/-- Even and odd positions of a list built from two elements per input. -/
theorem get?_flatMap_pair {α β : Type} (a b : α → β) (xs : List α) (k : Nat) :
    (xs.flatMap fun x => [a x, b x]).get? (2 * k) = (xs.get? k).map a
    ∧ (xs.flatMap fun x => [a x, b x]).get? (2 * k + 1) = (xs.get? k).map b := by
  induction xs generalizing k with
  | nil => simp
  | cons x xs ih =>
    cases k with
    | zero => simp [List.flatMap_cons]
    | succ k =>
      have h := ih k
      have e1 : 2 * (k + 1) = 2 * k + 1 + 1 := by omega
      rw [e1]
      simpa [List.flatMap_cons] using h

/-- C6: for every list of `N` faces and every initial output, `facesToDrawings`
lengthens the output by exactly `2 N` drawings; for the `k`-th face the drawing
at offset `2k` is `rectangleToDrawing(face.roi, closed=false)` on a fresh drawing
(strip, one contour of 4 points, index `[0]`) and the drawing at offset `2k+1` is
`faceToDrawing(face)` on a fresh drawing. -/
theorem facesToDrawings_alternate (strip0 : Bool) (color0 : Vec3f) (faces : List FaceModel)
    (drawings : LineDrawingVec) :
    (facesToDrawings strip0 color0 faces drawings).length =
        drawings.length + 2 * faces.length
    ∧ ∀ (k : Nat) (f : FaceModel), faces.get? k = some f →
      (facesToDrawings strip0 color0 faces drawings).get? (drawings.length + 2 * k) =
          some (rectangleToDrawing f.roi (LineDrawing.fresh strip0 color0) false)
      ∧ (facesToDrawings strip0 color0 faces drawings).get? (drawings.length + 2 * k + 1) =
          some (faceToDrawing f (LineDrawing.fresh strip0 color0))
      ∧ (rectangleToDrawing f.roi (LineDrawing.fresh strip0 color0) false).strip = true
      ∧ (rectangleToDrawing f.roi (LineDrawing.fresh strip0 color0) false).contours.map
          List.length = [4]
      ∧ (rectangleToDrawing f.roi (LineDrawing.fresh strip0 color0) false).index = [0] := by
  rw [facesToDrawings_eq_append]
  refine ⟨?_, ?_⟩
  · rw [List.length_append, length_flatMap_pair]
  · intro k f hk
    refine ⟨?_, ?_, rfl, rfl, rfl⟩
    · rw [List.get?_eq_getElem?, List.getElem?_append_right (by omega),
        Nat.add_sub_cancel_left, ← List.get?_eq_getElem?, (get?_flatMap_pair _ _ faces k).1,
        hk]
      rfl
    · rw [List.get?_eq_getElem?, List.getElem?_append_right (by omega), Nat.add_assoc,
        Nat.add_sub_cancel_left, ← List.get?_eq_getElem?, (get?_flatMap_pair _ _ faces k).2,
        hk]
      rfl

/-- C10: for every list of rectangles and every initial output,
`rectanglesToDrawings` lengthens the output by exactly one drawing per rectangle,
and the drawing appended for the `k`-th rectangle is
`rectangleToDrawing(rectangle, closed=false)` on a fresh drawing: its single
contour is the 4 points TL, TR, BR, BL, not closed. -/
theorem rectanglesToDrawings_each (strip0 : Bool) (color0 : Vec3f) (rectangles : List Rect)
    (drawings : LineDrawingVec) :
    (rectanglesToDrawings strip0 color0 rectangles drawings).length =
        drawings.length + rectangles.length
    ∧ ∀ (k : Nat) (r : Rect), rectangles.get? k = some r →
      (rectanglesToDrawings strip0 color0 rectangles drawings).get? (drawings.length + k) =
          some (rectangleToDrawing r (LineDrawing.fresh strip0 color0) false)
      ∧ (rectangleToDrawing r (LineDrawing.fresh strip0 color0) false).contours =
          [[r.tl.toPoint2f, ⟨r.br.toPoint2f.x, r.tl.toPoint2f.y⟩, r.br.toPoint2f,
            ⟨r.tl.toPoint2f.x, r.br.toPoint2f.y⟩]]
      ∧ (rectangleToDrawing r (LineDrawing.fresh strip0 color0) false).contours.map
          List.length = [4] := by
  rw [rectanglesToDrawings_eq_append]
  refine ⟨by simp, ?_⟩
  intro k r hk
  refine ⟨?_, rfl, rfl⟩
  rw [get?_append_map, hk]
  rfl

/-- Witness for C6 at the one-element list `[sampleFace]` and an empty output:
two drawings, the rectangle of the roi and then the parts drawing with index
`[0, 2]`; on the empty list the output is unchanged. -/
theorem facesToDrawings_alternate_witness :
    [sampleFace].get? 0 = some sampleFace
    ∧ (facesToDrawings true ⟨0, 1, 0⟩ [sampleFace] []).length = 2
    ∧ (facesToDrawings true ⟨0, 1, 0⟩ [sampleFace] []).get? 0 =
        some (rectangleToDrawing ⟨1, 2, 3, 4⟩ (LineDrawing.fresh true ⟨0, 1, 0⟩) false)
    ∧ (facesToDrawings true ⟨0, 1, 0⟩ [sampleFace] []).get? 1 =
        some (faceToDrawing sampleFace (LineDrawing.fresh true ⟨0, 1, 0⟩))
    ∧ (faceToDrawing sampleFace (LineDrawing.fresh true ⟨0, 1, 0⟩)).index = [0, 2]
    ∧ (facesToDrawings true ⟨0, 1, 0⟩ [] [LineDrawing.fresh false ⟨1, 1, 1⟩]).length = 1 := by
  obtain ⟨h1, h2⟩ := facesToDrawings_alternate true ⟨0, 1, 0⟩ [sampleFace] []
  obtain ⟨h3, h4, _⟩ := h2 0 sampleFace rfl
  exact ⟨rfl, h1, h3, h4, rfl,
    (facesToDrawings_alternate true ⟨0, 1, 0⟩ [] [LineDrawing.fresh false ⟨1, 1, 1⟩]).1⟩

/-- Witness for C10 at the one-element list `[(0,0,10,5)]` and an empty output;
on the empty list the output is unchanged. -/
theorem rectanglesToDrawings_each_witness :
    [(⟨0, 0, 10, 5⟩ : Rect)].get? 0 = some ⟨0, 0, 10, 5⟩
    ∧ (rectanglesToDrawings true ⟨0, 1, 0⟩ [⟨0, 0, 10, 5⟩] []).length = 1
    ∧ (rectanglesToDrawings true ⟨0, 1, 0⟩ [⟨0, 0, 10, 5⟩] []).get? 0 =
        some (rectangleToDrawing ⟨0, 0, 10, 5⟩ (LineDrawing.fresh true ⟨0, 1, 0⟩) false)
    ∧ (rectangleToDrawing ⟨0, 0, 10, 5⟩ (LineDrawing.fresh true ⟨0, 1, 0⟩) false).contours =
        [[⟨0, 0⟩, ⟨10, 0⟩, ⟨10, 5⟩, ⟨0, 5⟩]]
    ∧ (rectanglesToDrawings true ⟨0, 1, 0⟩ [] [LineDrawing.fresh false ⟨1, 1, 1⟩]).length
        = 1 := by
  obtain ⟨h1, h2⟩ := rectanglesToDrawings_each true ⟨0, 1, 0⟩ [⟨0, 0, 10, 5⟩] []
  obtain ⟨h3, _, _⟩ := h2 0 ⟨0, 0, 10, 5⟩ rfl
  exact ⟨rfl, h1, h3, rfl,
    (rectanglesToDrawings_each true ⟨0, 1, 0⟩ [] [LineDrawing.fresh false ⟨1, 1, 1⟩]).1⟩

/-! ## getAngle and flowToDrawings -/

/-- The `float` angle of the displacement `(1, 0)` is 180, whatever the library
returns away from a zero ordinate. -/
theorem getAngle_one_zero (libm : Fp → Fp → Fp) : getAngle libm ⟨1, 0⟩ = 180 := by
  have h : atan2 libm 0 1 = 0 := rfl
  have e : getAngle libm ⟨1, 0⟩ =
      Fp.cast binary32 (Fp.div binary64 (Fp.mul binary64 (Fp.add binary64 0 M_PI) 180) M_PI) := by
    unfold getAngle
    rw [h]
  rw [e]
  decide

/-- With at least one column the computed index is a valid column number. -/
theorem index_mem (angle : Fp) (colorMap : Mat3f) (hW : 1 ≤ colorMap.cols) :
    0 ≤ flowToDrawings.index angle colorMap
    ∧ flowToDrawings.index angle colorMap ≤ colorMap.cols - 1 := by
  unfold flowToDrawings.index
  constructor
  · exact le_max_left _ _
  · exact max_le (by omega) (min_le_right _ _)

/-- With at least one column the lookup at the computed index succeeds and
returns the table entry at that position. -/
theorem elemAt_index (angle : Fp) (colorMap : Mat3f) (hW : 1 ≤ colorMap.cols) :
    ∃ col : Vec3f, colorMap.elemAt (flowToDrawings.index angle colorMap) = some col
      ∧ colorMap.row.get? (flowToDrawings.index angle colorMap).toNat = some col := by
  obtain ⟨h0, h1⟩ := index_mem angle colorMap hW
  have hlt : (flowToDrawings.index angle colorMap).toNat < colorMap.row.length := by
    unfold Mat3f.cols at h1
    omega
  refine ⟨colorMap.row.get ⟨_, hlt⟩, ?_, ?_⟩
  · unfold Mat3f.elemAt
    rw [if_pos ⟨h0, by omega⟩]
    exact List.get?_eq_get hlt
  · exact List.get?_eq_get hlt

/-- With at least one column `flowToDrawings` returns, and appends one drawing
per flow vector. -/
theorem flowToDrawings_eq_append (libm : Fp → Fp → Fp) (strip0 : Bool) (color0 : Vec3f)
    (flow : List Vec4f) (drawings : LineDrawingVec) (colorMap : Mat3f)
    (hW : 1 ≤ colorMap.cols) :
    flowToDrawings libm strip0 color0 flow drawings colorMap =
      some (drawings ++ flow.map fun f =>
        { strip := false, roi := Rect.empty,
          color := (colorMap.elemAt
            (flowToDrawings.index (getAngle libm ⟨f.v2, f.v3⟩) colorMap)).getD color0,
          index := [],
          contours := [[⟨f.v0, f.v1⟩, ⟨f.v0, f.v1⟩ + ⟨f.v2, f.v3⟩]] }) := by
  induction flow generalizing drawings with
  | nil => simp [flowToDrawings]
  | cons f flow ih =>
    obtain ⟨col, hcol, _⟩ := elemAt_index (getAngle libm ⟨f.v2, f.v3⟩) colorMap hW
    simp [flowToDrawings, hcol, ih, LineDrawing.fresh]

/-- Truncation of `180 + 0.5f` gives `180`. -/
theorem truncToInt_180 : truncToInt (180 + Fp.half) = 180 := by
  decide

/-- C7 as stated fails: for the flow vector `p = (16777216, 0)`, `q = (1, 0)` the
`float` sum `px + qx` rounds back to `16777216`, so the contour is
`[(16777216,0),(16777216,0)]` and not `[(px,py),(px+qx,py+qy)]`. -/
theorem flowToDrawings_segment_rounds :
    (flowToDrawings libmSample true ⟨0, 1, 0⟩ [⟨16777216, 0, 1, 0⟩] [] ⟨[⟨0, 0, 1⟩]⟩).map
        (List.map LineDrawing.contours) = some [[[⟨16777216, 0⟩, ⟨16777216, 0⟩]]]
    ∧ (flowToDrawings libmSample true ⟨0, 1, 0⟩ [⟨16777216, 0, 1, 0⟩] [] ⟨[⟨0, 0, 1⟩]⟩).map
        (List.map LineDrawing.contours) ≠ some [[[⟨16777216, 0⟩, ⟨16777217, 0⟩]]] := by
  decide

/-- C7 amended: for every list of flow vectors, every initial output and every
color table with at least one column, `flowToDrawings` returns an output that is
longer by exactly one drawing per flow vector, and the drawing at offset `k`
after the initial output, made from the `k`-th vector `(px, py, qx, qy)`, has
`strip = false` and the single contour `[p, p + q]` with the sum computed in
`float`; when the four components are integers and `px + qx`, `py + qy` have
magnitude at most `2 ^ 24` the sum is exact and the contour is
`[(px, py), (px + qx, py + qy)]`. -/
theorem flowToDrawings_segments (libm : Fp → Fp → Fp) (strip0 : Bool) (color0 : Vec3f)
    (flow : List Vec4f) (drawings : LineDrawingVec) (colorMap : Mat3f)
    (hW : 1 ≤ colorMap.cols) :
    ∃ result : LineDrawingVec,
      flowToDrawings libm strip0 color0 flow drawings colorMap = some result
      ∧ result.length = drawings.length + flow.length
      ∧ ∀ (k : Nat) (f : Vec4f), flow.get? k = some f →
          ∃ drawing : LineDrawing, result.get? (drawings.length + k) = some drawing
            ∧ drawing.strip = false
            ∧ drawing.contours = [[⟨f.v0, f.v1⟩, ⟨f.v0 + f.v2, f.v1 + f.v3⟩]]
            ∧ (∀ a b c e : Int, f = ⟨Fp.fin a 0, Fp.fin b 0, Fp.fin c 0, Fp.fin e 0⟩ →
                smallInt (a + c) → smallInt (b + e) →
                drawing.contours =
                  [[⟨Fp.fin a 0, Fp.fin b 0⟩, ⟨Fp.fin (a + c) 0, Fp.fin (b + e) 0⟩]]) := by
  refine ⟨_, flowToDrawings_eq_append libm strip0 color0 flow drawings colorMap hW,
    by simp, ?_⟩
  intro k f hk
  rw [get?_append_map, hk]
  refine ⟨_, rfl, rfl, rfl, ?_⟩
  intro a b c e hf h1 h2
  subst hf
  simp only [Point2f.add_mk, add_int_exact a c h1, add_int_exact b e h2]

/-- Witness for C7 amended: the flow vector `p = (0,0)`, `q = (1,0)` with a
one-column table gives one drawing with `strip = false` and contour
`[(0,0),(1,0)]`. -/
theorem flowToDrawings_segments_witness :
    (1 : Int) ≤ (Mat3f.mk [⟨0, 0, 1⟩]).cols
    ∧ ∃ (result : LineDrawingVec) (drawing : LineDrawing),
        flowToDrawings libmSample true ⟨0, 1, 0⟩ [⟨0, 0, 1, 0⟩] [] ⟨[⟨0, 0, 1⟩]⟩ =
          some result
        ∧ result.length = 1
        ∧ result.get? 0 = some drawing
        ∧ drawing.strip = false
        ∧ drawing.contours = [[⟨0, 0⟩, ⟨1, 0⟩]] := by
  have hW : (1 : Int) ≤ (Mat3f.mk [⟨0, 0, 1⟩]).cols := by decide
  refine ⟨hW, ?_⟩
  obtain ⟨result, h1, h2, h3⟩ :=
    flowToDrawings_segments libmSample true ⟨0, 1, 0⟩ [⟨0, 0, 1, 0⟩] [] ⟨[⟨0, 0, 1⟩]⟩ hW
  obtain ⟨drawing, h4, h5, _, h7⟩ := h3 0 ⟨0, 0, 1, 0⟩ rfl
  exact ⟨result, drawing, h1, h2, h4, h5, h7 0 0 1 0 rfl (by decide) (by decide)⟩

/-- C8 as stated fails: for the displacement `q = (-1, -0.0)` the library returns
`-π` rounded to `float`, which lies below `-M_PI`, and `getAngle` returns
`-11014811 / 2 ^ 41`, about `-5.0e-6`: the angle is not `>= 0`. -/
theorem getAngle_negative :
    getAngle libmSample ⟨-1, Fp.negZero⟩ = Fp.fin (-11014811) 41
    ∧ Fp.nonneg (getAngle libmSample ⟨-1, Fp.negZero⟩) = false
    ∧ flowToDrawings.index (getAngle libmSample ⟨-1, Fp.negZero⟩) ⟨List.replicate 360 ⟨0, 0, 0⟩⟩ = 0 := by
  decide

/-- C8 amended: for the `k`-th flow vector, with `a` the `float` returned by
`getAngle` for its displacement (a value that can be slightly negative), and a
color table with `W ≥ 1` columns: the index used is
`max(0, min(trunc(a + 0.5f), W - 1))` with the sum computed in `float`, it lies
in `[0, W - 1]`, and the color of the emitted drawing is the table entry at that
index.  For `q = (1, 0)` the angle is 180 and the index is `min(180, W - 1)`. -/
theorem flowToDrawings_color (libm : Fp → Fp → Fp) (strip0 : Bool) (color0 : Vec3f)
    (flow : List Vec4f) (drawings : LineDrawingVec) (colorMap : Mat3f) (k : Nat) (f : Vec4f)
    (hW : 1 ≤ colorMap.cols) (hk : flow.get? k = some f) :
    flowToDrawings.index (getAngle libm ⟨f.v2, f.v3⟩) colorMap =
        max 0 (min (truncToInt (getAngle libm ⟨f.v2, f.v3⟩ + Fp.half)) (colorMap.cols - 1))
    ∧ 0 ≤ flowToDrawings.index (getAngle libm ⟨f.v2, f.v3⟩) colorMap
    ∧ flowToDrawings.index (getAngle libm ⟨f.v2, f.v3⟩) colorMap ≤ colorMap.cols - 1
    ∧ (∃ (result : LineDrawingVec) (drawing : LineDrawing),
        flowToDrawings libm strip0 color0 flow drawings colorMap = some result
        ∧ result.get? (drawings.length + k) = some drawing
        ∧ colorMap.row.get?
            (flowToDrawings.index (getAngle libm ⟨f.v2, f.v3⟩) colorMap).toNat =
            some drawing.color)
    ∧ getAngle libm ⟨1, 0⟩ = 180
    ∧ flowToDrawings.index (getAngle libm ⟨1, 0⟩) colorMap = min 180 (colorMap.cols - 1) := by
  obtain ⟨h0, h1⟩ := index_mem (getAngle libm ⟨f.v2, f.v3⟩) colorMap hW
  refine ⟨rfl, h0, h1, ?_, getAngle_one_zero libm, ?_⟩
  · obtain ⟨col, hcol, hrow⟩ := elemAt_index (getAngle libm ⟨f.v2, f.v3⟩) colorMap hW
    refine ⟨_, { strip := false, roi := Rect.empty, color := col, index := [],
                 contours := [[⟨f.v0, f.v1⟩, ⟨f.v0, f.v1⟩ + ⟨f.v2, f.v3⟩]] },
      flowToDrawings_eq_append libm strip0 color0 flow drawings colorMap hW, ?_, hrow⟩
    rw [get?_append_map, hk]
    simp [hcol]
  · rw [getAngle_one_zero, flowToDrawings.index, truncToInt_180]
    exact max_eq_right (le_min (by norm_num) (by omega))

/-- Witness for C8 amended: the flow vector `p = (0,0)`, `q = (1,0)` and a table
of two columns: the index is `min(180, 1) = 1` and the drawing gets the second
color. -/
theorem flowToDrawings_color_witness :
    (1 : Int) ≤ (Mat3f.mk [⟨1, 0, 0⟩, ⟨0, 0, 1⟩]).cols
    ∧ flowToDrawings.index (getAngle libmSample ⟨1, 0⟩) ⟨[⟨1, 0, 0⟩, ⟨0, 0, 1⟩]⟩ = 1
    ∧ ∃ (result : LineDrawingVec) (drawing : LineDrawing),
        flowToDrawings libmSample true ⟨0, 1, 0⟩ [⟨0, 0, 1, 0⟩] []
            ⟨[⟨1, 0, 0⟩, ⟨0, 0, 1⟩]⟩ = some result
        ∧ result.get? 0 = some drawing
        ∧ some (⟨0, 0, 1⟩ : Vec3f) = some drawing.color := by
  have hW : (1 : Int) ≤ (Mat3f.mk [⟨1, 0, 0⟩, ⟨0, 0, 1⟩]).cols := by decide
  obtain ⟨_, _, _, ⟨result, drawing, h1, h2, h3⟩, _, h5⟩ :=
    flowToDrawings_color libmSample true ⟨0, 1, 0⟩ [⟨0, 0, 1, 0⟩] []
      ⟨[⟨1, 0, 0⟩, ⟨0, 0, 1⟩]⟩ 0 ⟨0, 0, 1, 0⟩ hW rfl
  have h6 : flowToDrawings.index (getAngle libmSample ⟨1, 0⟩) ⟨[⟨1, 0, 0⟩, ⟨0, 0, 1⟩]⟩ = 1 := by
    rw [h5]
    decide
  refine ⟨hW, h6, result, drawing, h1, h2, ?_⟩
  rw [h6] at h3
  exact h3

/-- Whenever `flowToDrawings` returns, for any color table, its result is the
initial output followed by one new drawing per flow vector. -/
theorem flowToDrawings_some_append (libm : Fp → Fp → Fp)
    (strip0 : Bool) (color0 : Vec3f) (flow : List Vec4f)
    (drawings : LineDrawingVec) (colorMap : Mat3f) (result : LineDrawingVec)
    (h : flowToDrawings libm strip0 color0 flow drawings colorMap = some result) :
    ∃ new : LineDrawingVec, result = drawings ++ new ∧ new.length = flow.length := by
  induction flow generalizing drawings with
  | nil =>
    simp only [flowToDrawings, Option.some.injEq] at h
    exact ⟨[], by simp [h], rfl⟩
  | cons f flow ih =>
    simp only [flowToDrawings] at h
    cases hc : colorMap.elemAt (flowToDrawings.index (getAngle libm ⟨f.v2, f.v3⟩) colorMap) with
    | none => simp [hc] at h
    | some col =>
      simp only [hc] at h
      obtain ⟨new, h1, h2⟩ := ih _ h
      rw [List.append_assoc] at h1
      exact ⟨_, h1, by simp [h2]⟩

/-- C11: for each of `flowToDrawings`, `pointsToCrosses`, `rectanglesToDrawings`
and `facesToDrawings`, for every input list and every initial output, the result
is the initial output, unchanged, followed by the new drawings (one per point,
one per rectangle, two per face, one per flow vector).  For `flowToDrawings`
this holds of every result it returns, and it does return whenever the color
table has at least one column. -/
theorem converters_append_only (libm : Fp → Fp → Fp)
    (strip0 : Bool) (color0 : Vec3f) (flow : List Vec4f)
    (points : List Point2f) (rectangles : List Rect) (faces : List FaceModel)
    (drawings : LineDrawingVec) (colorMap : Mat3f) :
    (∃ new : LineDrawingVec,
        pointsToCrosses strip0 color0 points drawings = drawings ++ new
        ∧ new.length = points.length)
    ∧ (∃ new : LineDrawingVec,
        rectanglesToDrawings strip0 color0 rectangles drawings = drawings ++ new
        ∧ new.length = rectangles.length)
    ∧ (∃ new : LineDrawingVec,
        facesToDrawings strip0 color0 faces drawings = drawings ++ new
        ∧ new.length = 2 * faces.length)
    ∧ (∀ result : LineDrawingVec,
        flowToDrawings libm strip0 color0 flow drawings colorMap = some result →
        ∃ new : LineDrawingVec, result = drawings ++ new ∧ new.length = flow.length)
    ∧ (1 ≤ colorMap.cols →
        ∃ result new : LineDrawingVec,
          flowToDrawings libm strip0 color0 flow drawings colorMap = some result
          ∧ result = drawings ++ new ∧ new.length = flow.length) := by
  refine ⟨⟨_, pointsToCrosses_eq_append strip0 color0 points drawings, by simp⟩,
    ⟨_, rectanglesToDrawings_eq_append strip0 color0 rectangles drawings, by simp⟩,
    ⟨_, facesToDrawings_eq_append strip0 color0 faces drawings, length_flatMap_pair _ _ _⟩,
    fun result h => flowToDrawings_some_append libm strip0 color0 flow drawings colorMap result h,
    fun hW => ?_⟩
  exact ⟨_, _, flowToDrawings_eq_append libm strip0 color0 flow drawings colorMap hW, rfl, by simp⟩

/-- Witness for C11: each converter applied to a one-element input and the
one-element initial output `[LineDrawing.fresh false (1,1,1)]` keeps that drawing
in front. -/
theorem converters_append_only_witness :
    (∃ new : LineDrawingVec,
        pointsToCrosses true ⟨0, 1, 0⟩ [⟨3, 4⟩] [LineDrawing.fresh false ⟨1, 1, 1⟩] =
          [LineDrawing.fresh false ⟨1, 1, 1⟩] ++ new ∧ new.length = 1)
    ∧ (∃ new : LineDrawingVec,
        rectanglesToDrawings true ⟨0, 1, 0⟩ [⟨0, 0, 10, 5⟩] [LineDrawing.fresh false ⟨1, 1, 1⟩] =
          [LineDrawing.fresh false ⟨1, 1, 1⟩] ++ new ∧ new.length = 1)
    ∧ (∃ new : LineDrawingVec,
        facesToDrawings true ⟨0, 1, 0⟩ [sampleFace] [LineDrawing.fresh false ⟨1, 1, 1⟩] =
          [LineDrawing.fresh false ⟨1, 1, 1⟩] ++ new ∧ new.length = 2)
    ∧ (∃ result new : LineDrawingVec,
        flowToDrawings libmSample true ⟨0, 1, 0⟩ [⟨0, 0, 1, 0⟩] [LineDrawing.fresh false ⟨1, 1, 1⟩]
            ⟨[⟨0, 0, 1⟩]⟩ = some result
        ∧ result = [LineDrawing.fresh false ⟨1, 1, 1⟩] ++ new ∧ new.length = 1) := by
  obtain ⟨h1, h2, h3, _, h5⟩ :=
    converters_append_only libmSample true ⟨0, 1, 0⟩ [⟨0, 0, 1, 0⟩] [⟨3, 4⟩] [⟨0, 0, 10, 5⟩] [sampleFace]
      [LineDrawing.fresh false ⟨1, 1, 1⟩] ⟨[⟨0, 0, 1⟩]⟩
  exact ⟨h1, h2, h3, h5 (by decide)⟩

/-! ## flowToDrawings with an empty color table -/

/-- C12: with a color table of width 0, for every angle the computed index
`max(0, min(trunc(a + 0.5), width - 1))` is 0, position 0 is not a valid position
of the table, and the lookup at the computed index returns `none`; hence
`flowToDrawings` has no result on a non-empty list of flow vectors. -/
theorem flowToDrawings_empty_table (libm : Fp → Fp → Fp)
    (strip0 : Bool) (color0 : Vec3f) (colorMap : Mat3f)
    (angle : Fp) (f : Vec4f) (flow : List Vec4f) (drawings : LineDrawingVec)
    (hW : colorMap.cols = 0) :
    flowToDrawings.index angle colorMap = 0
    ∧ max 0 (min (truncToInt (angle + Fp.half)) (colorMap.cols - 1)) = 0
    ∧ colorMap.row.get? 0 = none
    ∧ colorMap.elemAt (flowToDrawings.index angle colorMap) = none
    ∧ flowToDrawings libm strip0 color0 (f :: flow) drawings colorMap = none := by
  have hidx : ∀ a : Fp, flowToDrawings.index a colorMap = 0 := by
    intro a
    unfold flowToDrawings.index
    rw [hW]
    exact max_eq_left ((min_le_right _ _).trans (by norm_num))
  have hnone : ∀ a : Fp, colorMap.elemAt (flowToDrawings.index a colorMap) = none := by
    intro a
    rw [hidx a, Mat3f.elemAt, hW]
    simp
  have hrow : colorMap.row = [] := by
    unfold Mat3f.cols at hW
    exact List.length_eq_zero.mp (by exact_mod_cast hW)
  refine ⟨hidx angle, hidx angle, by simp [hrow], hnone angle, ?_⟩
  simp [flowToDrawings, hnone]

/-- Witness for C12: the empty table and the flow vector `(0, 0, 1, 0)`. -/
theorem flowToDrawings_empty_table_witness :
    (Mat3f.mk []).cols = 0
    ∧ flowToDrawings.index 180 ⟨[]⟩ = 0
    ∧ (Mat3f.mk []).elemAt (flowToDrawings.index 180 ⟨[]⟩) = none
    ∧ flowToDrawings libmSample true ⟨0, 1, 0⟩ [⟨0, 0, 1, 0⟩] [] ⟨[]⟩ = none := by
  obtain ⟨h1, _, _, h4, h5⟩ :=
    flowToDrawings_empty_table libmSample true ⟨0, 1, 0⟩ ⟨[]⟩ 180 ⟨0, 0, 1, 0⟩ [] [] rfl
  exact ⟨rfl, h1, h4, h5⟩

/-! ## faceToDrawing on an arbitrary drawing, and the shape of its index -/

/-- C13: on an arbitrary input drawing `faceToDrawing` keeps the prior contours
and the prior index entries as unchanged prefixes and appends after them the
contours and index entries it produces on a fresh drawing, equally many of each;
so `contours.length - index.length` is the same after the call as before, and
the two sequences have equal length afterwards if and only if they had before. -/
theorem faceToDrawing_append (strip0 : Bool) (color0 : Vec3f) (face : FaceModel)
    (drawing : LineDrawing) :
    (faceToDrawing face drawing).contours =
        drawing.contours ++ (faceToDrawing face (LineDrawing.fresh strip0 color0)).contours
    ∧ (faceToDrawing face drawing).index =
        drawing.index ++ (faceToDrawing face (LineDrawing.fresh strip0 color0)).index
    ∧ (faceToDrawing face (LineDrawing.fresh strip0 color0)).contours.length =
        (faceToDrawing face (LineDrawing.fresh strip0 color0)).index.length
    ∧ ((faceToDrawing face drawing).contours.length : Int)
          - ((faceToDrawing face drawing).index.length : Int) =
        (drawing.contours.length : Int) - (drawing.index.length : Int)
    ∧ ((faceToDrawing face drawing).contours.length = (faceToDrawing face drawing).index.length
        ↔ drawing.contours.length = drawing.index.length) := by
  rw [faceToDrawing_eq face drawing, faceToDrawing_eq face (LineDrawing.fresh strip0 color0)]
  simp only [LineDrawing.fresh, List.nil_append, List.length_append, List.length_map]
  refine ⟨trivial, trivial, trivial, ?_, ?_⟩
  · push_cast
    ring
  · omega

/-- The tags of the parts numbered from `i`, one part unwound. -/
theorem tags_cons (i : Nat) (part : ContourVec) (parts : List ContourVec) :
    (taggedContoursFrom i (part :: parts)).map Prod.fst =
      List.replicate (part.filter fun c => c.length ≠ 0).length (i : Int)
        ++ (taggedContoursFrom (i + 1) parts).map Prod.fst := by
  simp [taggedContoursFrom_cons, Function.comp_def, List.map_const']

/-- Every tag of the parts numbered from `i` lies in `[i, i + n)`. -/
theorem tags_bounds (i : Nat) (parts : List ContourVec) (t : Int)
    (ht : t ∈ (taggedContoursFrom i parts).map Prod.fst) :
    (i : Int) ≤ t ∧ t < (i : Int) + (parts.length : Int) := by
  induction parts generalizing i with
  | nil => simp [taggedContoursFrom] at ht
  | cons part parts ih =>
    rw [tags_cons, List.mem_append] at ht
    rcases ht with ht | ht
    · have := (List.mem_replicate.mp ht).2
      simp only [List.length_cons]
      omega
    · have := ih (i + 1) ht
      simp only [List.length_cons]
      omega

/-- The tags of the parts numbered from `i` are non-decreasing. -/
theorem tags_pairwise (i : Nat) (parts : List ContourVec) :
    ((taggedContoursFrom i parts).map Prod.fst).Pairwise (· ≤ ·) := by
  induction parts generalizing i with
  | nil => simp [taggedContoursFrom]
  | cons part parts ih =>
    rw [tags_cons, List.pairwise_append]
    refine ⟨?_, ih (i + 1), ?_⟩
    · rw [List.pairwise_replicate]
      exact Or.inr (le_refl _)
    · intro a ha b hb
      have h1 := (List.mem_replicate.mp ha).2
      have h2 := tags_bounds (i + 1) parts b hb
      omega

/-- The number of tags equal to `i + k` is the number of non-empty contours of
the `k`-th of the parts numbered from `i`. -/
theorem tags_count (i : Nat) (parts : List ContourVec) (k : Nat) (part : ContourVec)
    (hk : parts.get? k = some part) :
    ((taggedContoursFrom i parts).map Prod.fst).count (((i + k : Nat)) : Int) =
      (part.filter fun c => c.length ≠ 0).length := by
  induction parts generalizing i k with
  | nil => simp at hk
  | cons p parts ih =>
    rw [tags_cons, List.count_append]
    cases k with
    | zero =>
      simp only [List.get?_cons_zero, Option.some.injEq] at hk
      subst hk
      have h0 : ((taggedContoursFrom (i + 1) parts).map Prod.fst).count ((i : Nat) : Int) = 0 := by
        apply List.count_eq_zero.mpr
        intro hmem
        have := tags_bounds (i + 1) parts _ hmem
        omega
      simp [h0]
    | succ k =>
      simp only [List.get?_cons_succ] at hk
      have h := ih (i + 1) k hk
      have e : (((i + 1 + k : Nat)) : Int) = (((i + (k + 1) : Nat)) : Int) := by
        push_cast
        ring
      rw [e] at h
      have hrep : (List.replicate (p.filter fun c => c.length ≠ 0).length (i : Int)).count
          (((i + (k + 1) : Nat)) : Int) = 0 := by
        apply List.count_eq_zero.mpr
        intro hmem
        have := (List.mem_replicate.mp hmem).2
        omega
      rw [h, hrep, Nat.zero_add]

/-- C14: for every face model with `n` parts, on a fresh drawing the index
sequence produced by `faceToDrawing` is non-decreasing, every entry `i` satisfies
`0 ≤ i < n`, and for every part number `k < n` the number of entries equal to
`k` is the number of non-empty contours of part `k`. -/
theorem faceToDrawing_index_shape (strip0 : Bool) (color0 : Vec3f) (face : FaceModel) :
    (faceToDrawing face (LineDrawing.fresh strip0 color0)).index.Pairwise (· ≤ ·)
    ∧ (∀ i ∈ (faceToDrawing face (LineDrawing.fresh strip0 color0)).index,
        0 ≤ i ∧ i < ((face.getFaceParts true).length : Int))
    ∧ (∀ (k : Nat) (part : ContourVec), (face.getFaceParts true).get? k = some part →
        (faceToDrawing face (LineDrawing.fresh strip0 color0)).index.count (k : Int) =
          (part.filter fun c => c.length ≠ 0).length) := by
  rw [faceToDrawing_eq]
  simp only [LineDrawing.fresh, List.nil_append, taggedContours]
  refine ⟨tags_pairwise 0 _, ?_, ?_⟩
  · intro i hi
    have := tags_bounds 0 _ i hi
    simpa using this
  · intro k part hk
    have := tags_count 0 _ k part hk
    simpa using this

/-- Witness for C14 on `sampleFace` (three parts with 1, 0 and 1 non-empty
contours): the index is `[0, 2]`, and it holds one `0`, no `1` and one `2`. -/
theorem faceToDrawing_index_shape_witness :
    (faceToDrawing sampleFace (LineDrawing.fresh true ⟨0, 1, 0⟩)).index = [0, 2]
    ∧ (faceToDrawing sampleFace (LineDrawing.fresh true ⟨0, 1, 0⟩)).index.Pairwise (· ≤ ·)
    ∧ (faceToDrawing sampleFace (LineDrawing.fresh true ⟨0, 1, 0⟩)).index.count (0 : Int) = 1
    ∧ (faceToDrawing sampleFace (LineDrawing.fresh true ⟨0, 1, 0⟩)).index.count (1 : Int) = 0
    ∧ (faceToDrawing sampleFace (LineDrawing.fresh true ⟨0, 1, 0⟩)).index.count (2 : Int) = 1 := by
  obtain ⟨h1, _, h3⟩ := faceToDrawing_index_shape true ⟨0, 1, 0⟩ sampleFace
  exact ⟨rfl, h1, h3 0 _ rfl, h3 1 _ rfl, h3 2 _ rfl⟩

/-! ## rectangleToDrawing overwrites -/

/-- C15: for every rectangle, closed flag and input drawings, the `strip`,
`contours` and `index` of the result of `rectangleToDrawing` do not depend on the
input drawing, its `roi` and `color` are those of the input drawing, and applying
`rectangleToDrawing` twice with the same arguments gives the same drawing as
applying it once. -/
theorem rectangleToDrawing_overwrites (r : Rect) (closed : Bool)
    (drawing other : LineDrawing) :
    (rectangleToDrawing r drawing closed).strip = (rectangleToDrawing r other closed).strip
    ∧ (rectangleToDrawing r drawing closed).contours =
        (rectangleToDrawing r other closed).contours
    ∧ (rectangleToDrawing r drawing closed).index = (rectangleToDrawing r other closed).index
    ∧ (rectangleToDrawing r drawing closed).roi = drawing.roi
    ∧ (rectangleToDrawing r drawing closed).color = drawing.color
    ∧ rectangleToDrawing r (rectangleToDrawing r drawing closed) closed =
        rectangleToDrawing r drawing closed := by
  cases closed <;> exact ⟨rfl, rfl, rfl, rfl, rfl, rfl⟩

/-! ## The list converters and concatenation of inputs -/

/-- Running `flowToDrawings` on a concatenation is running it on the first list
and then, if that returns, on the second list from the output so obtained. -/
theorem flowToDrawings_concat (libm : Fp → Fp → Fp)
    (strip0 : Bool) (color0 : Vec3f) (xs ys : List Vec4f)
    (out : LineDrawingVec) (colorMap : Mat3f) :
    flowToDrawings libm strip0 color0 (xs ++ ys) out colorMap =
      (flowToDrawings libm strip0 color0 xs out colorMap).bind
        fun mid => flowToDrawings libm strip0 color0 ys mid colorMap := by
  induction xs generalizing out with
  | nil => simp [flowToDrawings]
  | cons f xs ih =>
    simp only [List.cons_append, flowToDrawings]
    cases colorMap.elemAt (flowToDrawings.index (getAngle libm ⟨f.v2, f.v3⟩) colorMap) with
    | none => rfl
    | some col => exact ih _

/-- The result of `flowToDrawings` from an output `front ++ out` is `front` put
before its result from `out`. -/
theorem flowToDrawings_front (libm : Fp → Fp → Fp)
    (strip0 : Bool) (color0 : Vec3f) (xs : List Vec4f)
    (front out : LineDrawingVec) (colorMap : Mat3f) :
    flowToDrawings libm strip0 color0 xs (front ++ out) colorMap =
      (flowToDrawings libm strip0 color0 xs out colorMap).map fun new => front ++ new := by
  induction xs generalizing out with
  | nil => simp [flowToDrawings]
  | cons f xs ih =>
    simp only [flowToDrawings]
    cases colorMap.elemAt (flowToDrawings.index (getAngle libm ⟨f.v2, f.v3⟩) colorMap) with
    | none => rfl
    | some col =>
      simp only [List.append_assoc]
      exact ih _

/-- C16: each list converter is a homomorphism over concatenation of its input:
for `pointsToCrosses`, `rectanglesToDrawings` and `facesToDrawings`,
`F(xs ++ ys, out) = F(ys, F(xs, out))`, `F([], out) = out` and
`F(xs, out) = out ++ F(xs, [])`; for `flowToDrawings` with a fixed color table
the same three equations hold between the results whenever they exist (the run
on `xs ++ ys` returns exactly when the run on `xs` and then the run on `ys`
return), and with at least one column all runs return. -/
theorem converters_concat (libm : Fp → Fp → Fp)
    (strip0 : Bool) (color0 : Vec3f) (ps qs : List Point2f)
    (rs ss : List Rect) (fs gs : List FaceModel) (xs ys : List Vec4f)
    (out : LineDrawingVec) (colorMap : Mat3f) :
    (pointsToCrosses strip0 color0 (ps ++ qs) out =
        pointsToCrosses strip0 color0 qs (pointsToCrosses strip0 color0 ps out)
      ∧ pointsToCrosses strip0 color0 [] out = out
      ∧ pointsToCrosses strip0 color0 ps out = out ++ pointsToCrosses strip0 color0 ps [])
    ∧ (rectanglesToDrawings strip0 color0 (rs ++ ss) out =
        rectanglesToDrawings strip0 color0 ss (rectanglesToDrawings strip0 color0 rs out)
      ∧ rectanglesToDrawings strip0 color0 [] out = out
      ∧ rectanglesToDrawings strip0 color0 rs out =
          out ++ rectanglesToDrawings strip0 color0 rs [])
    ∧ (facesToDrawings strip0 color0 (fs ++ gs) out =
        facesToDrawings strip0 color0 gs (facesToDrawings strip0 color0 fs out)
      ∧ facesToDrawings strip0 color0 [] out = out
      ∧ facesToDrawings strip0 color0 fs out = out ++ facesToDrawings strip0 color0 fs [])
    ∧ (flowToDrawings libm strip0 color0 (xs ++ ys) out colorMap =
        (flowToDrawings libm strip0 color0 xs out colorMap).bind
          (fun mid => flowToDrawings libm strip0 color0 ys mid colorMap)
      ∧ flowToDrawings libm strip0 color0 [] out colorMap = some out
      ∧ flowToDrawings libm strip0 color0 xs out colorMap =
          (flowToDrawings libm strip0 color0 xs [] colorMap).map fun new => out ++ new)
    ∧ (1 ≤ colorMap.cols →
        ∃ mid all new : LineDrawingVec,
          flowToDrawings libm strip0 color0 xs out colorMap = some mid
          ∧ flowToDrawings libm strip0 color0 ys mid colorMap = some all
          ∧ flowToDrawings libm strip0 color0 (xs ++ ys) out colorMap = some all
          ∧ flowToDrawings libm strip0 color0 xs [] colorMap = some new
          ∧ mid = out ++ new) := by
  refine ⟨⟨?_, rfl, ?_⟩, ⟨?_, rfl, ?_⟩, ⟨?_, rfl, ?_⟩, ⟨?_, rfl, ?_⟩, ?_⟩
  · simp [pointsToCrosses_eq_append]
  · rw [pointsToCrosses_eq_append, pointsToCrosses_eq_append strip0 color0 ps []]
    simp
  · simp [rectanglesToDrawings_eq_append]
  · rw [rectanglesToDrawings_eq_append, rectanglesToDrawings_eq_append strip0 color0 rs []]
    simp
  · simp [facesToDrawings_eq_append]
  · rw [facesToDrawings_eq_append, facesToDrawings_eq_append strip0 color0 fs []]
    simp
  · exact flowToDrawings_concat libm strip0 color0 xs ys out colorMap
  · have h := flowToDrawings_front libm strip0 color0 xs out [] colorMap
    rwa [List.append_nil] at h
  · intro hW
    refine ⟨_, _, _, flowToDrawings_eq_append libm strip0 color0 xs out colorMap hW,
      flowToDrawings_eq_append libm strip0 color0 ys _ colorMap hW, ?_,
      flowToDrawings_eq_append libm strip0 color0 xs [] colorMap hW, by simp⟩
    rw [flowToDrawings_eq_append libm strip0 color0 (xs ++ ys) out colorMap hW]
    simp

/-- Witness for C16: two points, two rectangles, two faces and two flow vectors
with a one-column table, from an empty output. -/
theorem converters_concat_witness :
    pointsToCrosses true ⟨0, 1, 0⟩ ([⟨3, 4⟩] ++ [⟨0, 0⟩]) [] =
        pointsToCrosses true ⟨0, 1, 0⟩ [⟨0, 0⟩] (pointsToCrosses true ⟨0, 1, 0⟩ [⟨3, 4⟩] [])
    ∧ rectanglesToDrawings true ⟨0, 1, 0⟩ ([⟨0, 0, 10, 5⟩] ++ [⟨1, 2, 3, 4⟩]) [] =
        rectanglesToDrawings true ⟨0, 1, 0⟩ [⟨1, 2, 3, 4⟩]
          (rectanglesToDrawings true ⟨0, 1, 0⟩ [⟨0, 0, 10, 5⟩] [])
    ∧ facesToDrawings true ⟨0, 1, 0⟩ ([sampleFace] ++ [sampleFace]) [] =
        facesToDrawings true ⟨0, 1, 0⟩ [sampleFace]
          (facesToDrawings true ⟨0, 1, 0⟩ [sampleFace] [])
    ∧ (1 : Int) ≤ (Mat3f.mk [⟨0, 0, 1⟩]).cols
    ∧ ∃ mid all : LineDrawingVec,
        flowToDrawings libmSample true ⟨0, 1, 0⟩ [⟨0, 0, 1, 0⟩] [] ⟨[⟨0, 0, 1⟩]⟩ = some mid
        ∧ flowToDrawings libmSample true ⟨0, 1, 0⟩ [⟨5, 5, 0, 1⟩] mid ⟨[⟨0, 0, 1⟩]⟩ = some all
        ∧ flowToDrawings libmSample true ⟨0, 1, 0⟩ ([⟨0, 0, 1, 0⟩] ++ [⟨5, 5, 0, 1⟩]) [] ⟨[⟨0, 0, 1⟩]⟩ =
            some all
        ∧ mid.length = 1 ∧ all.length = 2 := by
  have hW : (1 : Int) ≤ (Mat3f.mk [⟨0, 0, 1⟩]).cols := by decide
  obtain ⟨⟨h1, _⟩, ⟨h2, _⟩, ⟨h3, _⟩, _, h5⟩ :=
    converters_concat libmSample true ⟨0, 1, 0⟩ [⟨3, 4⟩] [⟨0, 0⟩] [⟨0, 0, 10, 5⟩] [⟨1, 2, 3, 4⟩]
      [sampleFace] [sampleFace] [⟨0, 0, 1, 0⟩] [⟨5, 5, 0, 1⟩] [] ⟨[⟨0, 0, 1⟩]⟩
  obtain ⟨mid, all, new, k1, k2, k3, _, _⟩ := h5 hW
  obtain ⟨n1, e1, l1⟩ := flowToDrawings_some_append _ _ _ _ _ _ _ k1
  obtain ⟨n2, e2, l2⟩ := flowToDrawings_some_append _ _ _ _ _ _ _ k2
  refine ⟨h1, h2, h3, hW, mid, all, k1, k2, k3, ?_, ?_⟩
  · simp [e1, l1]
  · simp [e2, e1, l1, l2]

/-! ## facesToDrawings and rectanglesToDrawings on the bounding boxes -/

/-- Even offsets of a list built from two elements per input. -/
theorem evenOffsets_flatMap_pair {α β : Type} (a b : α → β) (xs : List α) :
    evenOffsets (xs.flatMap fun x => [a x, b x]) = xs.map a := by
  induction xs with
  | nil => rfl
  | cons x xs ih =>
    show evenOffsets (a x :: b x :: xs.flatMap fun x => [a x, b x]) = a x :: xs.map a
    rw [evenOffsets, ih]

/-- Odd offsets of a list built from two elements per input. -/
theorem oddOffsets_flatMap_pair {α β : Type} (a b : α → β) (xs : List α) :
    oddOffsets (xs.flatMap fun x => [a x, b x]) = xs.map b := by
  induction xs with
  | nil => rfl
  | cons x xs ih =>
    show oddOffsets (a x :: b x :: xs.flatMap fun x => [a x, b x]) = b x :: xs.map b
    rw [oddOffsets, ih]

/-- C17: for every list of faces, the drawings that `facesToDrawings` appends at
even offsets `0, 2, 4, ...` are exactly the drawings that `rectanglesToDrawings`
appends for the list of the faces' roi rectangles (position by position and as
sequences); these rectangle drawings carry the default, empty roi, while the
drawings at odd offsets are the parts drawings of the faces, each carrying the
roi of its face. -/
theorem facesToDrawings_boxes (strip0 : Bool) (color0 : Vec3f) (faces : List FaceModel)
    (out other : LineDrawingVec) :
    evenOffsets ((facesToDrawings strip0 color0 faces out).drop out.length) =
        (rectanglesToDrawings strip0 color0 (faces.map FaceModel.roi) other).drop other.length
    ∧ (∀ k : Nat, (facesToDrawings strip0 color0 faces out).get? (out.length + 2 * k) =
        (rectanglesToDrawings strip0 color0 (faces.map FaceModel.roi) other).get?
          (other.length + k))
    ∧ (∀ d ∈ evenOffsets ((facesToDrawings strip0 color0 faces out).drop out.length),
        d.roi = Rect.empty)
    ∧ oddOffsets ((facesToDrawings strip0 color0 faces out).drop out.length) =
        faces.map (fun f => faceToDrawing f (LineDrawing.fresh strip0 color0))
    ∧ (oddOffsets ((facesToDrawings strip0 color0 faces out).drop out.length)).map
        LineDrawing.roi = faces.map FaceModel.roi := by
  rw [facesToDrawings_eq_append, rectanglesToDrawings_eq_append, List.drop_left,
    List.drop_left, evenOffsets_flatMap_pair, oddOffsets_flatMap_pair]
  refine ⟨by simp [List.map_map, Function.comp_def], ?_, ?_, rfl, ?_⟩
  · intro k
    rw [get?_append_map, List.get?_eq_getElem?, List.getElem?_append_right (by omega),
      Nat.add_sub_cancel_left, ← List.get?_eq_getElem?, (get?_flatMap_pair _ _ faces k).1]
    rw [List.get?_eq_getElem?, List.get?_eq_getElem?, List.getElem?_map]
    cases faces[k]? <;> rfl
  · intro d hd
    obtain ⟨f, _, rfl⟩ := List.mem_map.mp hd
    rfl
  · rw [List.map_map]
    apply List.map_congr_left
    intro f _
    simp [faceToDrawing_eq]

/-- Evaluation for C17 on the faces `[sampleFace, sampleFace]` from an empty
output: four drawings, the rois at even offsets are empty and those at odd
offsets are the face's roi `(1, 2, 3, 4)`. -/
theorem facesToDrawings_boxes_sample :
    (facesToDrawings true ⟨0, 1, 0⟩ [sampleFace, sampleFace] []).map LineDrawing.roi =
      [Rect.empty, ⟨1, 2, 3, 4⟩, Rect.empty, ⟨1, 2, 3, 4⟩]
    ∧ evenOffsets (facesToDrawings true ⟨0, 1, 0⟩ [sampleFace, sampleFace] []) =
        rectanglesToDrawings true ⟨0, 1, 0⟩ [⟨1, 2, 3, 4⟩, ⟨1, 2, 3, 4⟩] [] := by
  constructor
  · rfl
  · rfl

end Scene
